import Mathlib

/-!
Verification of the microcbor codec (a streaming CBOR encoder/decoder).

This file shallowly embeds the decoder core of the repository:

* `Decoder.ts` — the in-memory decoder over a single byte array with a
  `#offset` cursor (class `Decoder`, function `decode`);
* `part_001` — the synchronous streaming decoder over an iterable of
  byte chunks (class `Decoder`, `decodeIterable`);
* `decodeAsyncIterable.ts` — the asynchronous streaming decoder, equal to
  the synchronous one except that every point that may need more input is
  a suspension point and that fully consumed chunks are handed to an
  `onFree` callback;
* `part_003` — utilities: `getByteLength` (UTF-8 length of a JS string),
  `UnsafeIntegerError`, safe-integer bounds.

Modelling conventions:

* Byte arrays (`Uint8Array`) are `List Nat` with entries < 256 wherever a
  claim's meaning depends on it.
* JS strings appear in two roles: as decode *output* they are represented
  by their list of Unicode code points (the result of the WHATWG
  `TextDecoder` algorithm, including U+FFFD replacement and BOM removal),
  and as *input* to `getByteLength` they are represented by their list of
  UTF-16 code units (what `charCodeAt` yields).
* JS numbers produced by the decoder are exact: majors 0/1 only produce
  values inside the safe-integer range (the unsafe ones raise), so `Int`
  is a faithful carrier.  For an 8-byte *length* argument above 2^53−1 the
  JS code computes `Infinity`; the model keeps the exact integer instead.
  All behaviours proved below only concern runs whose lengths stay within
  the input (`Infinity` can never reach them), so the two agree there.
* Floating-point payloads are carried as their raw big-endian bit
  patterns (`getFloat16/32/64` reinterpretation is not modelled; equal
  bit patterns give equal JS numbers, so every equality proved here is
  sound for the JS values).
* The decoder is fueled: structural recursion over values is paid for by
  a `Nat` fuel parameter and exhaustion is a dedicated error, never a
  result.
-/

/-- The distinguishable error kinds a decode run can raise.
`unsafeInteger` mirrors `UnsafeIntegerError` from `part_003` and carries
the offending big integer; `jsError`/`jsTypeError` mirror thrown `Error`/
`TypeError` with their message; `rangeError` mirrors the `RangeError` a
`DataView` read throws when it runs past the end of the buffer;
`outOfFuel` is the model's fuel-exhaustion marker. -/
inductive DErr where
  | unsafeInteger (message : String) (value : Int)
  | jsError (message : String)
  | jsTypeError (message : String)
  | rangeError
  | outOfFuel
deriving DecidableEq, Repr

/-- A key-path component: a map key (string, as code points) or an array
index, exactly the `string|number` union the source pushes via `pushKey`. -/
inductive Key where
  | str (s : List Nat)
  | idx (n : Nat)
deriving DecidableEq, Repr

/-- The CBOR value universe produced by the decoder.  Strings are decoded
code-point lists, maps are insertion-ordered association lists (JS object
insertion order), floats carry raw bit patterns (see header comment). -/
inductive CBORValue where
  | int (n : Int)
  | bytes (bs : List Nat)
  | str (s : List Nat)
  | arr (xs : List CBORValue)
  | map (es : List (List Nat × CBORValue))
  | bool (b : Bool)
  | null
  | undef
  | f16 (bits : Nat)
  | f32 (bits : Nat)
  | f64 (bits : Nat)
deriving Repr

/-- The state-with-exceptions monad every decoder runs in: a state
transformer over `Except DErr`, written out as a plain function type so
that proofs can unfold it freely. -/
def KM (σ : Type) (α : Type) : Type := σ → Except DErr (α × σ)

instance : Monad (KM σ) where
  pure a := fun s => .ok (a, s)
  bind x f := fun s => match x s with
    | .error e => .error e
    | .ok (a, s') => f a s'

/-- Raise an error (JS `throw`). -/
def KM.throw (e : DErr) : KM σ α := fun _ => .error e

/-- Read the current state. -/
def KM.get : KM σ σ := fun s => .ok (s, s)

/-- Replace the current state. -/
def KM.set (s : σ) : KM σ Unit := fun _ => .ok ((), s)

/-- Transform the current state. -/
def KM.modify (f : σ → σ) : KM σ Unit := fun s => .ok ((), f s)

theorem KM.bind_def (x : KM σ α) (f : α → KM σ β) (s : σ) :
    (x >>= f) s = match x s with
      | .error e => .error e
      | .ok (a, s') => f a s' := rfl

theorem KM.pure_def (a : α) (s : σ) : (pure a : KM σ α) s = .ok (a, s) := rfl

/-! ## UTF-8 (WHATWG `TextDecoder`, non-fatal, BOM-removing)

`decodeString` in every decoder runs the payload bytes through a
`TextDecoder` constructed with default options: invalid sequences become
U+FFFD and a leading byte-order mark is removed.  The decoder below is
the WHATWG UTF-8 decode algorithm specialised to a complete input. -/

/-- One pass of the WHATWG UTF-8 decoder.  State: accumulated code point,
bytes seen, bytes needed, and the admissible range for the next
continuation byte.  A byte outside that range emits U+FFFD and is
reprocessed in the initial state (inlined here, since the state was just
reset). -/
def utf8Step (cp seen needed lo hi : Nat) : List Nat → List Nat
  | [] => if needed = 0 then [] else [0xFFFD]
  | b :: rest =>
    if needed = 0 then
      if b ≤ 0x7F then b :: utf8Step 0 0 0 0x80 0xBF rest
      else if 0xC2 ≤ b ∧ b ≤ 0xDF then utf8Step (b % 32) 0 1 0x80 0xBF rest
      else if 0xE0 ≤ b ∧ b ≤ 0xEF then
        utf8Step (b % 16) 0 2 (if b = 0xE0 then 0xA0 else 0x80)
          (if b = 0xED then 0x9F else 0xBF) rest
      else if 0xF0 ≤ b ∧ b ≤ 0xF4 then
        utf8Step (b % 8) 0 3 (if b = 0xF0 then 0x90 else 0x80)
          (if b = 0xF4 then 0x8F else 0xBF) rest
      else 0xFFFD :: utf8Step 0 0 0 0x80 0xBF rest
    else if lo ≤ b ∧ b ≤ hi then
      let cp' := cp * 64 + (b % 64)
      if seen + 1 = needed then cp' :: utf8Step 0 0 0 0x80 0xBF rest
      else utf8Step cp' (seen + 1) needed 0x80 0xBF rest
    else
      -- invalid continuation: emit U+FFFD, reset, reprocess `b`
      0xFFFD :: (if b ≤ 0x7F then b :: utf8Step 0 0 0 0x80 0xBF rest
        else if 0xC2 ≤ b ∧ b ≤ 0xDF then utf8Step (b % 32) 0 1 0x80 0xBF rest
        else if 0xE0 ≤ b ∧ b ≤ 0xEF then
          utf8Step (b % 16) 0 2 (if b = 0xE0 then 0xA0 else 0x80)
            (if b = 0xED then 0x9F else 0xBF) rest
        else if 0xF0 ≤ b ∧ b ≤ 0xF4 then
          utf8Step (b % 8) 0 3 (if b = 0xF0 then 0x90 else 0x80)
            (if b = 0xF4 then 0x8F else 0xBF) rest
        else 0xFFFD :: utf8Step 0 0 0 0x80 0xBF rest)

/-- `new TextDecoder().decode(bytes)`: WHATWG UTF-8 decode with
replacement, then removal of a leading byte-order mark. -/
def utf8DecodeJS (bs : List Nat) : List Nat :=
  match utf8Step 0 0 0 0x80 0xBF bs with
  | 0xFEFF :: rest => rest
  | cps => cps

/-! ## `getByteLength` (`part_003`) and the spec's surrogate convention -/

/-- UTF-8 size of one non-surrogate code point (or of a combined
surrogate pair), the `encode utf8` tail of `getByteLength`.  The source
throws "Invalid code point" above 0x10FFFF; on the string domain that is
unreachable, and the branch is kept as a sentinel via `Option` at the
call sites below being total: here we return 4 for the pair case and the
1/2/3 cases verbatim; inputs ≥ 0x110000 cannot arise from code units. -/
def utf8Units (c : Nat) : Nat :=
  if c < 0x80 then 1 else if c < 0x800 then 2 else if c < 0x10000 then 3 else 4

/-- The state machine of `getByteLength` from `part_003`, recursion over
the remaining code units with the pending lead surrogate as state
(`leadSurrogate` in the source; surrogate code units are never zero, so
JS `!leadSurrogate` is exactly `Option.isNone`).  The `i + 1 === length`
test of the source is `rest = []`. -/
def getByteLengthGo (lead : Option Nat) : List Nat → Nat
  | [] => 0
  | c :: rest =>
    if 0xD7FF < c ∧ c < 0xE000 then
      match lead with
      | none =>
        if 0xDBFF < c then 3 + getByteLengthGo none rest
        else if rest = [] then 3 + getByteLengthGo none rest
        else getByteLengthGo (some c) rest
      | some l =>
        if c < 0xDC00 then 3 + getByteLengthGo (some c) rest
        else utf8Units (((l - 0xD800) * 1024 + (c - 0xDC00)) + 0x10000) +
          getByteLengthGo none rest
    else
      (if lead.isSome then 3 else 0) + utf8Units c + getByteLengthGo none rest

/-- `getByteLength(string)` from `part_003`: the UTF-8 byte length the
encoder uses for a JS string, given as its UTF-16 code-unit list. -/
def getByteLength (s : List Nat) : Nat := getByteLengthGo none s

/-- Classifying code units. -/
def isLead (c : Nat) : Prop := 0xD800 ≤ c ∧ c ≤ 0xDBFF

def isTrail (c : Nat) : Prop := 0xDC00 ≤ c ∧ c ≤ 0xDFFF

instance (c : Nat) : Decidable (isLead c) := by unfold isLead; infer_instance
instance (c : Nat) : Decidable (isTrail c) := by unfold isTrail; infer_instance


/-- The spec's surrogate convention, written from its words: walking the
code units left to right, a lead immediately followed by a trail forms a
pair worth 4 bytes; any other surrogate (lone lead, lone trail, lead at
end) is worth 3 bytes (the U+FFFD replacement); other code units take
their standard UTF-8 width. -/
def specUtf8Length : List Nat → Nat
  | [] => 0
  | [c] => if isLead c ∨ isTrail c then 3 else utf8Units c
  | c :: c2 :: rest =>
    if isLead c then
      if isTrail c2 then 4 + specUtf8Length rest
      else 3 + specUtf8Length (c2 :: rest)
    else if isTrail c then 3 + specUtf8Length (c2 :: rest)
    else utf8Units c + specUtf8Length (c2 :: rest)

/-- The inputs on which `getByteLength` deviates from the convention: the
string ends with two consecutive lead surrogates (the machine exits with
a pending lead that is never counted). -/
def endsTwoLeads : List Nat → Prop
  | [c1, c2] => isLead c1 ∧ isLead c2
  | _ :: c2 :: c3 :: rest => endsTwoLeads (c2 :: c3 :: rest)
  | _ => False

instance endsTwoLeadsDec : (l : List Nat) → Decidable (endsTwoLeads l)
  | [] => isFalse (fun h => h)
  | [_] => isFalse (fun h => h)
  | [_, _] => instDecidableAnd
  | _ :: c2 :: c3 :: rest => endsTwoLeadsDec (c2 :: c3 :: rest)

/-- The convention's byte count for a suffix walked with a pending lead
surrogate in front of it (the pending lead pairs with a first trail,
otherwise it counts as a lone surrogate). -/
def specPendingLen : List Nat → Nat
  | [] => 3
  | c :: rest =>
    if isTrail c then 4 + specUtf8Length rest else 3 + specUtf8Length (c :: rest)

/-- The suffixes that make the `getByteLength` machine finish while still
holding a pending lead (whose 3 bytes are then never added). -/
def pendDrop : List Nat → Prop
  | [] => True
  | [c] => isLead c
  | c1 :: c2 :: rest => endsTwoLeads (c1 :: c2 :: rest)

instance pendDropDec : (l : List Nat) → Decidable (pendDrop l)
  | [] => isTrue trivial
  | [c] => inferInstanceAs (Decidable (isLead c))
  | _ :: _ :: _ => endsTwoLeadsDec _

theorem spec_cons_lead {c : Nat} (hc : isLead c) (rest : List Nat) :
    specUtf8Length (c :: rest) = specPendingLen rest := by
  cases rest with
  | nil => simp [specUtf8Length, specPendingLen, hc]
  | cons c2 r2 => simp [specUtf8Length, specPendingLen, hc]

theorem spec_cons_not_lead {c : Nat} (hc : ¬ isLead c) (rest : List Nat) :
    specUtf8Length (c :: rest) = (if isTrail c then 3 else utf8Units c) + specUtf8Length rest := by
  cases rest with
  | nil =>
    by_cases ht : isTrail c <;> simp [specUtf8Length, hc, ht]
  | cons c2 r2 =>
    by_cases ht : isTrail c <;> simp [specUtf8Length, hc, ht]

theorem endsTwoLeads_cons_not_lead {c : Nat} (hc : ¬ isLead c) (rest : List Nat) :
    endsTwoLeads (c :: rest) ↔ endsTwoLeads rest := by
  cases rest with
  | nil => simp [endsTwoLeads]
  | cons c2 r2 =>
    cases r2 with
    | nil => simp [endsTwoLeads, hc]
    | cons c3 r3 => rfl

theorem endsTwoLeads_cons_lead {c : Nat} (hc : isLead c) {rest : List Nat}
    (hne : rest ≠ []) : endsTwoLeads (c :: rest) ↔ pendDrop rest := by
  cases rest with
  | nil => exact absurd rfl hne
  | cons c2 r2 =>
    cases r2 with
    | nil => simp [endsTwoLeads, pendDrop, hc]
    | cons c3 r3 => rfl

theorem pendDrop_cons_lead {c : Nat} (hc : isLead c) (rest : List Nat) :
    pendDrop (c :: rest) ↔ pendDrop rest := by
  cases rest with
  | nil => simp [pendDrop, hc]
  | cons c2 r2 =>
    rw [show pendDrop (c :: c2 :: r2) = endsTwoLeads (c :: c2 :: r2) from rfl]
    exact endsTwoLeads_cons_lead hc (by simp)

theorem pendDrop_cons_not_lead {c : Nat} (hc : ¬ isLead c) (rest : List Nat) :
    pendDrop (c :: rest) ↔ endsTwoLeads rest := by
  cases rest with
  | nil => simp [pendDrop, endsTwoLeads, hc]
  | cons c2 r2 =>
    rw [show pendDrop (c :: c2 :: r2) = endsTwoLeads (c :: c2 :: r2) from rfl]
    exact endsTwoLeads_cons_not_lead hc _

/-- Core analysis of the `getByteLength` state machine against the spec's
convention: started clean, the machine undercounts by exactly 3 precisely
on the `endsTwoLeads` inputs; started with a pending lead, it undercounts
by 3 precisely on the `pendDrop` suffixes. -/
theorem getByteLengthGo_spec (s : List Nat) :
    (getByteLengthGo none s + (if endsTwoLeads s then 3 else 0) = specUtf8Length s) ∧
    (∀ l, isLead l →
      getByteLengthGo (some l) s + (if pendDrop s then 3 else 0) = specPendingLen s) := by
  induction s with
  | nil => simp [getByteLengthGo, endsTwoLeads, specUtf8Length, pendDrop, specPendingLen]
  | cons c rest ih =>
    have hsplit : (0xD7FF < c ∧ c < 0xE000) ∨ ¬ (0xD7FF < c ∧ c < 0xE000) := em _
    constructor
    · -- clean-start mode
      rcases hsplit with hs | hs
      · by_cases htr : 0xDBFF < c
        · -- unexpected trail
          have hlead : ¬ isLead c := by unfold isLead; omega
          have htrail : isTrail c := by unfold isTrail; omega
          have hrw := endsTwoLeads_cons_not_lead hlead rest
          rw [getByteLengthGo]
          simp only [hs, and_self, if_pos, htr, if_pos trivial]
          rw [spec_cons_not_lead hlead, if_pos htrail]
          by_cases he : endsTwoLeads rest
          · have h1 := ih.1
            rw [if_pos he] at h1
            rw [if_pos (hrw.mpr he)]
            omega
          · have h1 := ih.1
            rw [if_neg he] at h1
            rw [if_neg (fun h => he (hrw.mp h))]
            omega
        · -- lead surrogate
          have hlead : isLead c := by unfold isLead; omega
          cases rest with
          | nil =>
            rw [getByteLengthGo]
            simp [getByteLengthGo, endsTwoLeads, specUtf8Length, hlead, htr, hs]
          | cons c2 r2 =>
            rw [getByteLengthGo]
            simp only [hs, and_self, if_pos, htr, ite_false, if_neg,
              List.cons_ne_nil]
            have hrw := endsTwoLeads_cons_lead hlead (List.cons_ne_nil c2 r2)
            have h2 := ih.2 c hlead
            rw [spec_cons_lead hlead]
            by_cases hp : pendDrop (c2 :: r2)
            · rw [if_pos hp] at h2
              rw [if_pos (hrw.mpr hp)]
              simpa using h2
            · rw [if_neg hp] at h2
              rw [if_neg (fun h => hp (hrw.mp h))]
              simpa using h2
      · -- not a surrogate
        have hlead : ¬ isLead c := by unfold isLead; omega
        have htrail : ¬ isTrail c := by unfold isTrail; omega
        have hrw := endsTwoLeads_cons_not_lead hlead rest
        rw [getByteLengthGo]
        simp only [if_neg hs, Option.isSome_none, Bool.false_eq_true, ite_false]
        rw [spec_cons_not_lead hlead, if_neg htrail]
        by_cases he : endsTwoLeads rest
        · have h1 := ih.1; rw [if_pos he] at h1
          rw [if_pos (hrw.mpr he)]; omega
        · have h1 := ih.1; rw [if_neg he] at h1
          rw [if_neg (fun h => he (hrw.mp h))]; omega
    · -- pending-lead mode
      intro l hl
      rcases hsplit with hs | hs
      · by_cases hld : c < 0xDC00
        · -- two leads in a row
          have hlead : isLead c := by unfold isLead; omega
          rw [getByteLengthGo]
          simp only [hs, and_self, if_pos, hld, ite_true]
          have h2 := ih.2 c hlead
          have hrw := pendDrop_cons_lead hlead rest
          have hnt : ¬ isTrail c := by unfold isTrail; omega
          rw [specPendingLen, if_neg hnt, spec_cons_lead hlead]
          by_cases hp : pendDrop rest
          · rw [if_pos hp] at h2; rw [if_pos (hrw.mpr hp)]; omega
          · rw [if_neg hp] at h2; rw [if_neg (fun h => hp (hrw.mp h))]; omega
        · -- valid surrogate pair
          have htrail : isTrail c := by unfold isTrail; omega
          have hlead : ¬ isLead c := by unfold isLead; omega
          rw [getByteLengthGo]
          simp only [hs, and_self, if_pos, hld, ite_false, if_neg]
          have hpair : utf8Units (((l - 0xD800) * 1024 + (c - 0xDC00)) + 0x10000) = 4 := by
            unfold isLead at hl
            unfold isTrail at htrail
            unfold utf8Units
            have h1 : ¬ ((l - 0xD800) * 1024 + (c - 0xDC00) + 0x10000 < 0x80) := by omega
            have h2 : ¬ ((l - 0xD800) * 1024 + (c - 0xDC00) + 0x10000 < 0x800) := by omega
            have h3 : ¬ ((l - 0xD800) * 1024 + (c - 0xDC00) + 0x10000 < 0x10000) := by omega
            simp [h1, h2, h3]
          rw [hpair, specPendingLen, if_pos htrail]
          have hrw := pendDrop_cons_not_lead hlead rest
          by_cases he : endsTwoLeads rest
          · have h1 := ih.1; rw [if_pos he] at h1
            rw [if_pos (hrw.mpr he)]; omega
          · have h1 := ih.1; rw [if_neg he] at h1
            rw [if_neg (fun h => he (hrw.mp h))]; omega
      · -- flush the pending lead, then a plain character
        have hlead : ¬ isLead c := by unfold isLead; omega
        have htrail : ¬ isTrail c := by unfold isTrail; omega
        rw [getByteLengthGo]
        simp only [if_neg hs, Option.isSome_some, ite_true]
        rw [specPendingLen, if_neg htrail, spec_cons_not_lead hlead, if_neg htrail]
        have hrw := pendDrop_cons_not_lead hlead rest
        by_cases he : endsTwoLeads rest
        · have h1 := ih.1; rw [if_pos he] at h1
          rw [if_pos (hrw.mpr he)]; omega
        · have h1 := ih.1; rw [if_neg he] at h1
          rw [if_neg (fun h => he (hrw.mp h))]; omega

/-- Claim C7, counterexample: the claim states `getByteLength` equals the
spec convention on every host string, but on the two-code-unit string
`"\uD800\uD800"` (two lead surrogates) `getByteLength` returns 3 while
the convention (two unpaired surrogates, 3 bytes each) gives 6. -/
theorem C7_counterexample :
    getByteLength [0xD800, 0xD800] = 3 ∧
    specUtf8Length [0xD800, 0xD800] = 6 ∧
    getByteLength [0xD800, 0xD800] ≠ specUtf8Length [0xD800, 0xD800] := by
  refine ⟨by decide, by decide, by decide⟩

/-- Claim C7, amended: for every host string `s` (UTF-16 code units,
each < 2^16), `getByteLength s` equals the byte length of `s`'s UTF-8
encoding under the library's surrogate convention — each unpaired
surrogate 3 bytes, each valid pair 4 bytes, others 1/2/3 bytes — except
that when `s` ends with two consecutive lead surrogates the final lead
contributes 0 bytes instead of 3 (it is left pending inside the loop of
`getByteLength` and never added). -/
theorem C7_getByteLength_amended (s : List Nat) (_hunits : ∀ c ∈ s, c < 0x10000) :
    (¬ endsTwoLeads s → getByteLength s = specUtf8Length s) ∧
    (endsTwoLeads s → getByteLength s + 3 = specUtf8Length s) := by
  have h := (getByteLengthGo_spec s).1
  constructor
  · intro he
    rw [if_neg he] at h
    simpa [getByteLength] using h
  · intro he
    rw [if_pos he] at h
    simpa [getByteLength] using h

/-- Claim C7, witness: the amended theorem applied to the concrete string
`"a𐀀"` (no two trailing leads: counts 1 + 4) and to
`"\uD800\uD800"` (two trailing leads: 3 + 3 = 6). -/
theorem C7_witness :
    getByteLength [0x61, 0xD800, 0xDC00] = specUtf8Length [0x61, 0xD800, 0xDC00] ∧
    getByteLength [0xD800, 0xD800] + 3 = specUtf8Length [0xD800, 0xD800] :=
  ⟨(C7_getByteLength_amended [0x61, 0xD800, 0xDC00] (by decide)).1 (by decide),
   (C7_getByteLength_amended [0xD800, 0xD800] (by decide)).2 (by decide)⟩

/-! ## The decoder core

`Decoder.ts`, `part_001` and `decodeAsyncIterable.ts` contain three
near-verbatim copies of the same `decodeValue`/`skipValue`/`getArgument`
state machine; they differ only in

* how bytes are obtained (a flat array with an `#offset` cursor vs. the
  chunk rope with `allocate`/`advance`), and
* the in-memory decoder additionally rejects duplicate map keys
  (`if (key in value) throw`), which both streaming decoders omit.

The machine is therefore embedded once, `decodeValueG`, parameterised by
a record of byte primitives (`Prims`) and a duplicate-check flag, and
instantiated twice: `memPrims` for `Decoder.ts`, `chunkPrims` for
`part_001`/`decodeAsyncIterable.ts` (those two differ only in `await`
placement and in the async `onFree` callback, which the model renders as
the `freed` log of the chunk core — inert for `part_001`). -/

def maxSafeInteger : Nat := 2 ^ 53 - 1

def minSafeInteger : Int := -(2 ^ 53 - 1)

/-- Per-traversal codec environment wrapped around a byte-cursor core:
the `#env` of the sources (`isKey` flag and mutable `keyPath`). -/
structure GSt (κ : Type) where
  core : κ
  isKey : Bool
  keyPath : List Key
deriving Repr

/-- The decoder monad over a core `κ`. -/
abbrev GM (κ : Type) (α : Type) : Type := KM (GSt κ) α

/-- Run a core-level action inside the full decoder state. -/
def liftCore (act : KM κ α) : GM κ α := fun s =>
  match act s.core with
  | .error e => .error e
  | .ok (a, c') => .ok (a, ⟨c', s.isKey, s.keyPath⟩)

/-- `this.pushKey(key)`. -/
def pushKeyG (k : Key) : GM κ Unit := fun s => .ok ((), ⟨s.core, s.isKey, s.keyPath ++ [k]⟩)

/-- `this.popKey()`. -/
def popKeyG : GM κ Unit := fun s => .ok ((), ⟨s.core, s.isKey, s.keyPath.dropLast⟩)

/-- `this.#env.isKey = b`. -/
def setIsKey (b : Bool) : GM κ Unit := fun s => .ok ((), ⟨s.core, b, s.keyPath⟩)

/-- `const { isKey, keyPath } = this.#env`. -/
def getEnv : GM κ (Bool × List Key) := fun s => .ok ((s.isKey, s.keyPath), s)

/-- The byte-level interface a decoder core provides. -/
structure Prims (κ : Type) where
  /-- Big-endian unsigned read of 1/2/4/8 bytes, advancing the cursor
  (`uint8` … `uint64`; also the byte reads behind the float views, whose
  raw bit patterns the model keeps). -/
  readUint : Nat → KM κ Nat
  /-- `decodeBytes(length)`: read a `length`-byte payload. -/
  readBytes : Nat → KM κ (List Nat)
  /-- The byte-fetch part of `decodeString(length)` (before `TextDecoder`). -/
  readStr : Nat → KM κ (List Nat)
  /-- Cursor advance past an `n`-byte payload (the skip path). -/
  skipBytes : Nat → KM κ Unit
  /-- Whether map decoding rejects duplicate keys (`Decoder.ts` does,
  the streaming decoders do not). -/
  dupCheck : Bool

/-- The result record of `getArgument`: the argument value, the raw
64-bit integer when the 8-byte form was used, and the byte size the
hooks receive.  For an 8-byte argument above 2^53−1 the JS code computes
`value = Infinity`; the model keeps the exact integer (see file header —
every behaviour proved below is confined to runs where the two agree). -/
structure Arg where
  value : Nat
  uint64 : Option Nat
  size : Nat
deriving Repr

/-- `getArgument(additionalInformation)`. -/
def getArgumentG (P : Prims κ) (ai : Nat) : GM κ Arg :=
  if ai < 24 then pure ⟨ai, none, 1⟩
  else if ai = 24 then do
    let v ← liftCore (P.readUint 1)
    pure ⟨v, none, 1⟩
  else if ai = 25 then do
    let v ← liftCore (P.readUint 2)
    pure ⟨v, none, 2⟩
  else if ai = 26 then do
    let v ← liftCore (P.readUint 4)
    pure ⟨v, none, 4⟩
  else if ai = 27 then do
    let u ← liftCore (P.readUint 8)
    pure ⟨u, some u, 8⟩
  else if ai = 31 then
    KM.throw (.jsError "microcbor does not support decoding indefinite-length items")
  else KM.throw (.jsError "invalid argument encoding")

/-! ### Transform hooks

A JS hook is an arbitrary function receiving a decode thunk; its
observable interaction per invocation is how many times it calls the
thunk and what it returns afterwards (possibly depending on the values
the thunk produced).  `Script`/`KeyScript` capture exactly that;
returning `none` is the JS `undefined`/`void` ("no replacement"). -/

structure Script where
  calls : Nat
  reply : List CBORValue → Option CBORValue

structure KeyScript where
  calls : Nat
  reply : List CBORValue → Option (List Nat)

/-- Decode options (`options.ts`), with hooks as scripts. -/
structure DecodeOptions where
  allowUndefined : Bool
  minFloatSize : Nat
  onKey : Option (Nat → KeyScript)
  onValue : Option (Nat → String → List Key → Script)

/-- Defaults: `allowUndefined ?? true`, `minFloatSize ?? 16`, no hooks. -/
def defaultOpts : DecodeOptions := ⟨true, 16, none, none⟩

/-- The memoized decode thunk handed to a hook: the shared mutable
`value` variable of the sources as an explicit cell — `none` is
"payload not yet decoded". -/
def memoStep (payload : KM σ CBORValue) : Option CBORValue → KM σ (CBORValue × Option CBORValue)
  | some v => pure (v, some v)
  | none => do
      let v ← payload
      pure (v, some v)

/-- Invoking the thunk `k` times, threading the memo cell and collecting
the returned values. -/
def iterThunk (cb : Option CBORValue → KM σ (CBORValue × Option CBORValue)) :
    Nat → Option CBORValue → KM σ (List CBORValue × Option CBORValue)
  | 0, memo => pure ([], memo)
  | k+1, memo => do
      let (v, memo') ← cb memo
      let (vs, memo'') ← iterThunk cb k memo'
      pure (v :: vs, memo'')

/-- The hook dispatch around a payload-reading item (majors 2–5):

    const val = this.onValue?.(callback, length, type, keyPath)
    if (val !== undefined) { if (value === undefined) <skip>; return val }
    return callback()
-/
def runPayloadHook (scr? : Option Script) (payload : KM σ CBORValue)
    (skip : KM σ Unit) : KM σ CBORValue :=
  match scr? with
  | none => do
      let r ← memoStep payload none
      pure r.1
  | some scr => do
      let r ← iterThunk (memoStep payload) scr.calls none
      match scr.reply r.1 with
      | some val =>
        match r.2 with
        | none => do
            skip
            pure val
        | some _ => pure val
      | none => do
          let r' ← memoStep payload r.2
          pure r'.1

/-- The same dispatch for the `onKey` hook of a map key (major 3 with
the `isKey` flag set); a key replacement is a string. -/
def runKeyHook (scr? : Option KeyScript) (payload : KM σ CBORValue)
    (skip : KM σ Unit) : KM σ CBORValue :=
  match scr? with
  | none => do
      let r ← memoStep payload none
      pure r.1
  | some scr => do
      let r ← iterThunk (memoStep payload) scr.calls none
      match scr.reply r.1 with
      | some ks =>
        match r.2 with
        | none => do
            skip
            pure (.str ks)
        | some _ => pure (.str ks)
      | none => do
          let r' ← memoStep payload r.2
          pure r'.1

/-- The hook dispatch around an already-computed scalar (majors 0/1 and
major 7): the thunk is pure, so only the reply matters —
`val === undefined ? value : val`. -/
def runScalarHook (scr? : Option Script) (value : CBORValue) : CBORValue :=
  match scr? with
  | none => value
  | some scr => (scr.reply (List.replicate scr.calls value)).getD value

/-- JS object insert `value[key] = v` on an insertion-ordered
association list: overwrite in place if present, else append. -/
def jsObjSet : List (List Nat × CBORValue) → List Nat → CBORValue →
    List (List Nat × CBORValue)
  | [], k, v => [(k, v)]
  | (k', v') :: rest, k, v =>
      if k' = k then (k', v) :: rest else (k', v') :: jsObjSet rest k v

/-- Run an action `n` times (the index-ignoring skip loops). -/
def repeatM (act : KM σ Unit) : Nat → KM σ Unit
  | 0 => pure ()
  | n+1 => do
      act
      repeatM act n

/-- The array-filling loop of major 4, abstracted over the element
decoder: `pushKey(i); value[i] = decodeValue(); popKey()`. -/
def arrLoop (dec : GM κ CBORValue) : Nat → Nat → List CBORValue → GM κ (List CBORValue)
  | _, 0, acc => pure acc
  | i, n+1, acc => do
      pushKeyG (.idx i)
      let v ← dec
      popKeyG
      arrLoop dec (i+1) n (acc ++ [v])

/-- The map-filling loop of major 5, abstracted over the entry decoder;
`dupCheck` is the `if (key in value) throw` of `Decoder.ts`, absent from
the streaming decoders.  (JS `in` also sees prototype properties; the
model checks own keys, which coincides on every input a claim touches.) -/
def mapLoop (dec : GM κ CBORValue) (dupCheck : Bool) :
    Nat → List (List Nat × CBORValue) → GM κ (List (List Nat × CBORValue))
  | 0, acc => pure acc
  | n+1, acc => do
      setIsKey true
      let key ← dec
      setIsKey false
      match key with
      | .str ks => do
          if dupCheck ∧ ks ∈ acc.map Prod.fst then
            KM.throw (.jsError "duplicate object key")
          else pure ()
          pushKeyG (.str ks)
          let v ← dec
          popKeyG
          mapLoop dec dupCheck n (jsObjSet acc ks v)
      | _ => KM.throw (.jsError "microcbor only supports string keys in objects")

/-- `skipValue()`: walk one item without materialising it.  Mirrors the
source: no safe-integer check, no `minFloatSize` check, no key checks,
and a silent fall-through on an impossible major type. -/
def skipValueG (P : Prims κ) (opts : DecodeOptions) : Nat → GM κ Unit
  | 0 => KM.throw .outOfFuel
  | fuel+1 => do
    let ib ← liftCore (P.readUint 1)
    -- `initialByte >> 5` and `initialByte & 0x1f`: on byte values these
    -- are exactly division and remainder by 32
    let mt := ib / 32
    let ai := ib % 32
    if mt = 0 ∨ mt = 1 then do
      let _ ← getArgumentG P ai
      pure ()
    else if mt = 2 ∨ mt = 3 then do
      let a ← getArgumentG P ai
      liftCore (P.skipBytes a.value)
    else if mt = 4 then do
      let a ← getArgumentG P ai
      repeatM (skipValueG P opts fuel) a.value
    else if mt = 5 then do
      let a ← getArgumentG P ai
      repeatM (skipValueG P opts fuel) (a.value * 2)
    else if mt = 6 then
      KM.throw (.jsError "microcbor does not support tagged data items")
    else if mt = 7 then
      if ai = 20 ∨ ai = 21 ∨ ai = 22 then pure ()
      else if ai = 23 then
        if opts.allowUndefined then pure ()
        else KM.throw (.jsTypeError "`undefined` not allowed")
      else if ai = 24 then
        KM.throw (.jsError "microcbor does not support decoding unassigned simple values")
      else if ai = 25 then liftCore (P.skipBytes 2)
      else if ai = 26 then liftCore (P.skipBytes 4)
      else if ai = 27 then liftCore (P.skipBytes 8)
      else if ai = 31 then
        KM.throw (.jsError "microcbor does not support decoding indefinite-length items")
      else KM.throw (.jsError "invalid simple value")
    else pure ()

/-- `decodeValue()`: one CBOR item, with hooks. -/
def decodeValueG (P : Prims κ) (opts : DecodeOptions) : Nat → GM κ CBORValue
  | 0 => KM.throw .outOfFuel
  | fuel+1 => do
    let ib ← liftCore (P.readUint 1)
    -- `initialByte >> 5` and `initialByte & 0x1f`: on byte values these
    -- are exactly division and remainder by 32
    let mt := ib / 32
    let ai := ib % 32
    let env ← getEnv
    let isKey := env.1
    let kp := env.2
    if mt = 0 then do
      let a ← getArgumentG P ai
      match a.uint64 with
      | some u =>
        if maxSafeInteger < u then
          KM.throw (.unsafeInteger "cannot decode integers greater than 2^53-1" u)
        else pure (runScalarHook (opts.onValue.map fun h => h a.size "number" kp) (.int a.value))
      | none => pure (runScalarHook (opts.onValue.map fun h => h a.size "number" kp) (.int a.value))
    else if mt = 1 then do
      let a ← getArgumentG P ai
      match a.uint64 with
      | some u =>
        if -1 - (u : Int) < minSafeInteger then
          KM.throw (.unsafeInteger "cannot decode integers less than -2^53+1" (-1 - (u : Int)))
        else pure (runScalarHook (opts.onValue.map fun h => h a.size "number" kp)
          (.int (-1 - (a.value : Int))))
      | none => pure (runScalarHook (opts.onValue.map fun h => h a.size "number" kp)
          (.int (-1 - (a.value : Int))))
    else if mt = 2 then do
      let a ← getArgumentG P ai
      runPayloadHook (opts.onValue.map fun h => h a.value "Uint8Array" kp)
        (do
          let bs ← liftCore (P.readBytes a.value)
          pure (.bytes bs))
        (liftCore (P.skipBytes a.value))
    else if mt = 3 then do
      let a ← getArgumentG P ai
      let payload : GM κ CBORValue := do
        let bs ← liftCore (P.readStr a.value)
        pure (.str (utf8DecodeJS bs))
      if isKey then
        runKeyHook (opts.onKey.map fun h => h a.value) payload
          (liftCore (P.skipBytes a.value))
      else
        runPayloadHook (opts.onValue.map fun h => h a.value "string" kp) payload
          (liftCore (P.skipBytes a.value))
    else if mt = 4 then do
      let a ← getArgumentG P ai
      runPayloadHook (opts.onValue.map fun h => h a.value "array" kp)
        (do
          let xs ← arrLoop (decodeValueG P opts fuel) 0 a.value []
          pure (.arr xs))
        (repeatM (skipValueG P opts fuel) a.value)
    else if mt = 5 then do
      let a ← getArgumentG P ai
      runPayloadHook (opts.onValue.map fun h => h a.value "object" kp)
        (do
          let es ← mapLoop (decodeValueG P opts fuel) P.dupCheck a.value []
          pure (.map es))
        (repeatM (skipValueG P opts fuel) (a.value * 2))
    else if mt = 6 then
      KM.throw (.jsError "microcbor does not support tagged data items")
    else if mt = 7 then
      if ai = 20 then
        pure (runScalarHook (opts.onValue.map fun h => h 1 "boolean" kp) (.bool false))
      else if ai = 21 then
        pure (runScalarHook (opts.onValue.map fun h => h 1 "boolean" kp) (.bool true))
      else if ai = 22 then
        pure (runScalarHook (opts.onValue.map fun h => h 1 "null" kp) .null)
      else if ai = 23 then
        if opts.allowUndefined then
          pure (runScalarHook (opts.onValue.map fun h => h 1 "undefined" kp) .undef)
        else KM.throw (.jsTypeError "`undefined` not allowed")
      else if ai = 24 then
        KM.throw (.jsError "microcbor does not support decoding unassigned simple values")
      else if ai = 25 then
        if opts.minFloatSize ≤ 16 then do
          let bits ← liftCore (P.readUint 2)
          pure (runScalarHook (opts.onValue.map fun h => h 2 "number" kp) (.f16 bits))
        else KM.throw (.jsError "cannot decode float16 type - below provided minFloatSize")
      else if ai = 26 then
        if opts.minFloatSize ≤ 32 then do
          let bits ← liftCore (P.readUint 4)
          pure (runScalarHook (opts.onValue.map fun h => h 4 "number" kp) (.f32 bits))
        else KM.throw (.jsError "cannot decode float32 type - below provided minFloatSize")
      else if ai = 27 then do
        let bits ← liftCore (P.readUint 8)
        pure (runScalarHook (opts.onValue.map fun h => h 8 "number" kp) (.f64 bits))
      else if ai = 31 then
        KM.throw (.jsError "microcbor does not support decoding indefinite-length items")
      else KM.throw (.jsError "invalid simple value")
    else KM.throw (.jsError "invalid major type")

/-! ### The in-memory decoder (`Decoder.ts`)

Core = the `#offset` cursor into the fixed byte array `data`.  The
fixed-width reads go through a `DataView`, which throws `RangeError`
past the end; `decodeBytes`/`decodeString` instead use `subarray`, which
clamps: a truncated byte-string payload comes back zero-padded (the
target `Uint8Array(length)` is zero-initialised) and a truncated text
payload comes back short, while `#offset` advances by the full length in
both cases. -/

/-- Big-endian integer value of a byte list (what a `DataView`
`getUintN`/float-bits read yields over those bytes). -/
def beVal (bs : List Nat) : Nat := bs.foldl (fun acc b => acc * 256 + b) 0

/-- Big-endian read of the `k` bytes of `data` at `off`. -/
def readBE (data : List Nat) (off k : Nat) : Nat := beVal ((data.drop off).take k)

/-- `uint8` … `uint64` of `Decoder.ts`: bounds-checked `DataView` read,
then `#offset += size`. -/
def memReadUint (data : List Nat) (k : Nat) : KM Nat Nat := fun off =>
  if off + k ≤ data.length then .ok (readBE data off k, off + k) else .error .rangeError

/-- `decodeBytes(length)` of `Decoder.ts`: `new Uint8Array(length)`
(zeroed) filled from the clamped `subarray`, `#offset += length`. -/
def memReadBytes (data : List Nat) (n : Nat) : KM Nat (List Nat) := fun off =>
  .ok ((data.drop off).take n ++ List.replicate (n - ((data.drop off).take n).length) 0,
       off + n)

/-- The byte fetch of `decodeString(length)` of `Decoder.ts`: the clamped
`subarray` itself (no padding), `#offset += length`. -/
def memReadStr (data : List Nat) (n : Nat) : KM Nat (List Nat) := fun off =>
  .ok ((data.drop off).take n, off + n)

/-- The skip path of `Decoder.ts`: `this.#offset += length`. -/
def memSkipBytes (n : Nat) : KM Nat Unit := fun off => .ok ((), off + n)

def memPrims (data : List Nat) : Prims Nat :=
  ⟨memReadUint data, memReadBytes data, memReadStr data, memSkipBytes, true⟩

/-- A fresh decoder environment over core `c`. -/
def initGSt (c : κ) : GSt κ := ⟨c, false, []⟩

/-- `decode(data, options)` from `Decoder.ts`: one `decodeValue()` of a
fresh `Decoder` over `data`. -/
def decode (opts : DecodeOptions) (data : List Nat) (fuel : Nat) : Except DErr CBORValue :=
  match decodeValueG (memPrims data) opts fuel (initGSt 0) with
  | .error e => .error e
  | .ok (v, _) => .ok v

/-! ### The streaming decoders (`part_001`, `decodeAsyncIterable.ts`)

Core = the chunk rope: read `offset` into the first held chunk, the
maintained unread `byteLength`, the held `chunks`, and the not yet
pulled `source`.  Two logs instrument the run: `received` (every chunk
the iterator produced) and `freed` (every chunk handed to the async
decoder's `onFree` in order; `part_001` has no `onFree`, and the log is
inert bookkeeping for it). -/

structure ChCore where
  offset : Nat
  byteLength : Nat
  chunks : List (List Nat)
  source : List (List Nat)
  freed : List (List Nat)
  received : List (List Nat)
deriving DecidableEq, Repr

/-- The pull loop of `allocate(size)`: pull chunks (pushing each, empty
or not) until `byteLength ≥ size`; a `done` iterator mid-way is the
"stream ended prematurely" error. -/
def allocateGo (n : Nat) : List (List Nat) → Nat → Nat → List (List Nat) →
    List (List Nat) → List (List Nat) → Except DErr ChCore
  | src, off, bl, chunks, freed, recv =>
    if n ≤ bl then .ok ⟨off, bl, chunks, src, freed, recv⟩
    else
      match src with
      | [] => .error (.jsError "stream ended prematurely")
      | c :: rest => allocateGo n rest off (bl + c.length) (chunks ++ [c]) freed (recv ++ [c])

/-- `allocate(size)`. -/
def chAllocate (n : Nat) : KM ChCore Unit := fun st =>
  match allocateGo n st.source st.offset st.byteLength st.chunks st.freed st.received with
  | .error e => .error e
  | .ok st' => .ok ((), st')

/-- The chunk walk of `advance(length, target?)`: returns the bytes
copied into the target, the number of fully consumed chunks to drop, and
the new read offset.  `none` is the impossible overrun the source guards
with its "internal error" check. -/
def advGo : List (List Nat) → Nat → Nat → Option (List Nat × Nat × Nat)
  | _, off, 0 => some ([], 0, off)
  | [], _, _+1 => none
  | c :: rest, off, need+1 =>
      if c.length - off ≤ need + 1 then
        match advGo rest 0 (need + 1 - (c.length - off)) with
        | none => none
        | some (col, dc, fo) => some (c.drop off ++ col, dc + 1, fo)
      else some ((c.drop off).take (need + 1), 0, off + (need + 1))

/-- `advance(length, target?)`: consume exactly `length` bytes, dropping
fully consumed chunks from the front and appending them to the `freed`
log (the async decoder's `onFree` loop, in order). -/
def chAdvance (n : Nat) : KM ChCore (List Nat) := fun st =>
  if st.byteLength < n then .error (.jsError "internal error - please file a bug report!")
  else match advGo st.chunks st.offset n with
    | none => .error (.jsError "internal error - please file a bug report!")
    | some (col, dc, fo) =>
        .ok (col, ⟨fo, st.byteLength - n, st.chunks.drop dc, st.source,
                   st.freed ++ st.chunks.take dc, st.received⟩)

/-- The `constant(size, f)` reads of the streaming decoders:
`allocate(size)` then fill the scratch buffer. -/
def chReadUint (k : Nat) : KM ChCore Nat := do
  chAllocate k
  let bs ← chAdvance k
  pure (beVal bs)

/-- `decodeBytes(length)` of the streaming decoders. -/
def chReadBytes (n : Nat) : KM ChCore (List Nat) := do
  chAllocate n
  chAdvance n

/-- The byte fetch of the streaming `decodeString(length)`. -/
def chReadStr (n : Nat) : KM ChCore (List Nat) := do
  chAllocate n
  chAdvance n

/-- The streaming skip path: `this.allocate(length); this.advance(length)`. -/
def chSkipBytes (n : Nat) : KM ChCore Unit := do
  chAllocate n
  let _ ← chAdvance n
  pure ()

def chunkPrims : Prims ChCore :=
  ⟨chReadUint, chReadBytes, chReadStr, chSkipBytes, false⟩

/-- The pull loop at the head of `next()`: while `byteLength === 0`,
pull; a `done` iterator means the value sequence is over (`true`), and a
pulled chunk is appended only when non-empty (but is still `received`). -/
def nextPull : List (List Nat) → Nat → Nat → List (List Nat) →
    List (List Nat) → List (List Nat) → ChCore × Bool
  | src, off, bl, chunks, freed, recv =>
    if bl = 0 then
      match src with
      | [] => (⟨off, bl, chunks, [], freed, recv⟩, true)
      | c :: rest =>
        if 0 < c.length then nextPull rest off (bl + c.length) (chunks ++ [c]) freed (recv ++ [c])
        else nextPull rest off bl chunks freed (recv ++ [c])
    else (⟨off, bl, chunks, src, freed, recv⟩, false)

/-- `next()` of the streaming decoders: `none` is the `done` result. -/
def chNext (opts : DecodeOptions) (fuel : Nat) : GM ChCore (Option CBORValue) := fun s =>
  match nextPull s.core.source s.core.offset s.core.byteLength s.core.chunks
      s.core.freed s.core.received with
  | (c', true) => .ok (none, ⟨c', s.isKey, s.keyPath⟩)
  | (c', false) =>
    match decodeValueG chunkPrims opts fuel ⟨c', s.isKey, s.keyPath⟩ with
    | .error e => .error e
    | .ok (v, s') => .ok (some v, s')

/-- Consuming the streaming decoder to completion (`decodeIterable` /
`for await … of decodeAsyncIterable`): the sequence of yielded values. -/
def decodeIterableGo (opts : DecodeOptions) : Nat → GM ChCore (List CBORValue)
  | 0 => KM.throw .outOfFuel
  | fuel+1 => do
      let r ← chNext opts fuel
      match r with
      | none => pure []
      | some v => do
          let vs ← decodeIterableGo opts fuel
          pure (v :: vs)

/-- A fresh streaming decoder over the chunk sequence `src`. -/
def initChCore (src : List (List Nat)) : ChCore := ⟨0, 0, [], src, [], []⟩

/-- `[...decodeIterable(src, options)]`. -/
def decodeIterable (opts : DecodeOptions) (src : List (List Nat)) (fuel : Nat) :
    Except DErr (List CBORValue) :=
  match decodeIterableGo opts fuel (initGSt (initChCore src)) with
  | .error e => .error e
  | .ok (vs, _) => .ok vs

/-- Modelled from the spec (§8 "Cursor exactness", §4.4): decoding the
byte array one top-level value at a time with the in-memory decoder,
until the cursor sits exactly at the end.  This is the comparison side
of the chunking-irrelevance claim; the repository has no such in-memory
drain loop of its own. -/
def decodeAllMem (opts : DecodeOptions) (data : List Nat) : Nat → GM Nat (List CBORValue)
  | 0 => KM.throw .outOfFuel
  | fuel+1 => do
      let s ← KM.get
      if s.core = data.length then pure []
      else do
        let v ← decodeValueG (memPrims data) opts fuel
        let vs ← decodeAllMem opts data fuel
        pure (v :: vs)

/-- Total unread-plus-unpulled bytes of a chunk list. -/
def sumLen (l : List (List Nat)) : Nat := (l.map List.length).sum

/-! ## Claim C1 — duplicate / non-string map keys across the entry points -/

/-- Claim C1, evaluated: on the map `{"a":1,"a":2}` (bytes
`A2 61 61 01 61 61 02`) the in-memory `decode` raises "duplicate object
key", but the streaming decoder (`part_001`; `decodeAsyncIterable.ts`
runs the byte-for-byte same loop) raises nothing and returns `{"a":2}` —
the second binding silently wins.  Non-string keys do raise in every
entry point (`{1:2}` = `A1 01 02` shown here). -/
theorem C1_duplicate_key_divergence :
    decode defaultOpts [0xA2, 0x61, 0x61, 0x01, 0x61, 0x61, 0x02] 5 =
      .error (.jsError "duplicate object key") ∧
    decodeIterable defaultOpts [[0xA2, 0x61, 0x61, 0x01, 0x61, 0x61, 0x02]] 5 =
      .ok [.map [([0x61], .int 2)]] ∧
    decode defaultOpts [0xA1, 0x01, 0x02] 5 =
      .error (.jsError "microcbor only supports string keys in objects") ∧
    decodeIterable defaultOpts [[0xA1, 0x01, 0x02]] 5 =
      .error (.jsError "microcbor only supports string keys in objects") := by
  refine ⟨by rfl, ?_, by rfl, ?_⟩ <;>
  simp [decodeIterable, decodeIterableGo, chNext, nextPull, decodeValueG, skipValueG,
    getArgumentG, runPayloadHook, runKeyHook, runScalarHook, memoStep, iterThunk,
    mapLoop, arrLoop, repeatM, jsObjSet, chunkPrims, chReadUint, chReadBytes, chReadStr,
    chSkipBytes, chAllocate, allocateGo, advGo, chAdvance, beVal, utf8DecodeJS, utf8Step,
    liftCore, getEnv, pushKeyG, popKeyG, setIsKey, KM.bind_def, KM.pure_def, KM.throw,
    KM.get, defaultOpts, initGSt, initChCore, maxSafeInteger, minSafeInteger]

/-! ## Claim C4 — premature end of input -/

/-- The pull loop of `allocate` raises "stream ended prematurely"
whenever the buffered bytes plus everything the source can still yield
fall short of the requested size. -/
theorem allocateGo_exhausted (n : Nat) (src : List (List Nat)) :
    ∀ off bl chunks freed recv, bl + sumLen src < n →
      allocateGo n src off bl chunks freed recv = .error (.jsError "stream ended prematurely") := by
  induction src with
  | nil =>
    intro off bl chunks freed recv h
    rw [allocateGo]
    rw [if_neg (by simp [sumLen] at h; omega)]
  | cons c rest ih =>
    intro off bl chunks freed recv h
    have hlt : ¬ n ≤ bl := by simp [sumLen] at h ⊢; omega
    rw [allocateGo, if_neg hlt]
    exact ih off (bl + c.length) (chunks ++ [c]) freed (recv ++ [c])
      (by simp [sumLen] at h ⊢; omega)

/-- Claim C4, amended: the streaming decoders do raise a premature-end
error whenever `allocate(n)` cannot gather `n` unread bytes before the
source is exhausted (first conjunct, universally; fourth conjunct shows a
whole truncated streaming decode).  The in-memory decoder raises only
for a truncated fixed-width argument or float — a `RangeError` from the
`DataView` read (second conjunct) — while a truncated byte-string or
text-string payload does not raise: `subarray` clamps and the value is
zero-padded/short (third conjunct, `62 61` decoding to `"a"` although
one payload byte is missing). -/
theorem C4_premature_end_amended :
    (∀ n src off bl chunks freed recv, bl + sumLen src < n →
      allocateGo n src off bl chunks freed recv =
        .error (.jsError "stream ended prematurely")) ∧
    (∀ data k off, data.length < off + k →
      memReadUint data k off = .error .rangeError) ∧
    decode defaultOpts [0x62, 0x61] 5 = .ok (.str [0x61]) ∧
    decodeIterable defaultOpts [[0x62], [0x61]] 5 =
      .error (.jsError "stream ended prematurely") := by
  refine ⟨fun n src off bl chunks freed recv h =>
      allocateGo_exhausted n src off bl chunks freed recv h,
    fun data k off h => ?_, by rfl, ?_⟩
  · unfold memReadUint
    rw [if_neg (by omega)]
  · simp [decodeIterable, decodeIterableGo, chNext, nextPull, decodeValueG, skipValueG,
      getArgumentG, runPayloadHook, runKeyHook, runScalarHook, memoStep, iterThunk,
      mapLoop, arrLoop, repeatM, jsObjSet, chunkPrims, chReadUint, chReadBytes, chReadStr,
      chSkipBytes, chAllocate, allocateGo, advGo, chAdvance, beVal, utf8DecodeJS, utf8Step,
      liftCore, getEnv, pushKeyG, popKeyG, setIsKey, KM.bind_def, KM.pure_def, KM.throw,
      KM.get, defaultOpts, initGSt, initChCore, maxSafeInteger, minSafeInteger]

/-- Claim C4, counterexample: the claim says the in-memory decoder
raises a premature-end error when the byte array ends before the item's
payload is complete; but `decode` of `41` (byte string of announced
length 1 with no payload byte) returns the zero-padded value `h'00'`
instead of raising. -/
theorem C4_counterexample :
    decode defaultOpts [0x41] 5 = .ok (.bytes [0]) := rfl

/-- Claim C4, witness: the amended theorem's universal conjuncts applied
at concrete inputs — `allocate(3)` over an exhausted source holding one
2-byte chunk, and a `uint16` read one byte before the end. -/
theorem C4_witness :
    allocateGo 3 [[7, 8]] 0 0 [] [] [] = .error (.jsError "stream ended prematurely") ∧
    memReadUint [1, 2, 3] 2 2 = .error .rangeError :=
  ⟨C4_premature_end_amended.1 3 [[7, 8]] 0 0 [] [] [] (by decide),
   C4_premature_end_amended.2.1 [1, 2, 3] 2 2 (by decide)⟩

theorem beVal_singleton (x : Nat) : beVal [x] = x := by simp [beVal]

/-! ## Claim C5 — 8-byte integer arguments and `UnsafeIntegerError` -/

/-- Claim C5: decoding a major-type-0 item with 8-byte argument `u`
(bytes `1B b0 … b7`) raises `UnsafeIntegerError` carrying `u` exactly
when `u > 2^53−1`, and yields the exact integer `u` otherwise; decoding
the major-type-1 counterpart (`3B b0 … b7`) raises `UnsafeIntegerError`
carrying `−1−u` exactly when `−1−u < −(2^53−1)`, and yields the exact
integer `−1−u` otherwise. -/
theorem C5_unsafe_integer (b : List Nat) (fuel : Nat) (hlen : b.length = 8)
    (_hbytes : ∀ x ∈ b, x < 256) :
    (maxSafeInteger < beVal b →
      decode defaultOpts (0x1B :: b) (fuel + 1) =
        .error (.unsafeInteger "cannot decode integers greater than 2^53-1" (beVal b))) ∧
    (beVal b ≤ maxSafeInteger →
      decode defaultOpts (0x1B :: b) (fuel + 1) = .ok (.int (beVal b))) ∧
    (-1 - (beVal b : Int) < minSafeInteger →
      decode defaultOpts (0x3B :: b) (fuel + 1) =
        .error (.unsafeInteger "cannot decode integers less than -2^53+1"
          (-1 - (beVal b : Int)))) ∧
    (minSafeInteger ≤ -1 - (beVal b : Int) →
      decode defaultOpts (0x3B :: b) (fuel + 1) = .ok (.int (-1 - (beVal b : Int)))) := by
  have htake : b.take 8 = b := by
    rw [← hlen]
    exact List.take_length b
  refine ⟨fun hu => ?_, fun hu => ?_, fun hu => ?_, fun hu => ?_⟩
  · simp [decode, decodeValueG, getArgumentG, runScalarHook, memPrims, memReadUint,
      readBE, initGSt, liftCore, getEnv, KM.bind_def, KM.pure_def, KM.throw,
      defaultOpts, hlen, htake, beVal_singleton, hu]
  · have hn : ¬ maxSafeInteger < beVal b := not_lt_of_le hu
    simp [decode, decodeValueG, getArgumentG, runScalarHook, memPrims, memReadUint,
      readBE, initGSt, liftCore, getEnv, KM.bind_def, KM.pure_def, KM.throw,
      defaultOpts, hlen, htake, beVal_singleton, hn]
  · simp [decode, decodeValueG, getArgumentG, runScalarHook, memPrims, memReadUint,
      readBE, initGSt, liftCore, getEnv, KM.bind_def, KM.pure_def, KM.throw,
      defaultOpts, hlen, htake, beVal_singleton, hu]
  · have hn : ¬ (-1 - (beVal b : Int) < minSafeInteger) := not_lt_of_le hu
    simp [decode, decodeValueG, getArgumentG, runScalarHook, memPrims, memReadUint,
      readBE, initGSt, liftCore, getEnv, KM.bind_def, KM.pure_def, KM.throw,
      defaultOpts, hlen, htake, beVal_singleton, hn]

/-- Claim C5, witness: the spec's own example `1B 00 20 00 00 00 00 00 01`
(the integer 2^53+1) raises `UnsafeIntegerError` carrying 2^53+1, while
`1B 00 1F FF FF FF FF FF FF` (2^53−1) decodes exactly. -/
theorem C5_witness :
    decode defaultOpts [0x1B, 0x00, 0x20, 0x00, 0x00, 0x00, 0x00, 0x00, 0x01] 5 =
      .error (.unsafeInteger "cannot decode integers greater than 2^53-1" 9007199254740993) ∧
    decode defaultOpts [0x1B, 0x00, 0x1F, 0xFF, 0xFF, 0xFF, 0xFF, 0xFF, 0xFF] 5 =
      .ok (.int 9007199254740991) := by
  constructor
  · have h := (C5_unsafe_integer [0x00, 0x20, 0x00, 0x00, 0x00, 0x00, 0x00, 0x01] 4
      (by decide) (by decide)).1 (by decide)
    simpa [beVal] using h
  · have h := (C5_unsafe_integer [0x00, 0x1F, 0xFF, 0xFF, 0xFF, 0xFF, 0xFF, 0xFF] 4
      (by decide) (by decide)).2.1 (by decide)
    simpa [beVal] using h

/-! ## Claim C8 — the decode thunk is memoized -/

/-- Claim C8: the decode thunk handed to an `onValue`/`onKey` hook
(`iterThunk (memoStep payload)` inside `runPayloadHook`/`runKeyHook`) is
memoized: invoking it `k ≥ 1` times runs the payload decode exactly
once — the final state is the state after a single normal decode of the
payload — and every invocation returns that first value. -/
theorem C8_thunk_memoized (payload : KM σ CBORValue) (k : Nat) (hk : 1 ≤ k) (s : σ) :
    iterThunk (memoStep payload) k none s =
      match payload s with
      | .error e => .error e
      | .ok (v, s') => .ok ((List.replicate k v, some v), s') := by
  have hit : ∀ (j : Nat) (v : CBORValue) (t : σ),
      iterThunk (memoStep payload) j (some v) t = .ok ((List.replicate j v, some v), t) := by
    intro j
    induction j with
    | zero => intro v t; rfl
    | succ j ih =>
      intro v t
      simp only [iterThunk, memoStep, KM.bind_def, KM.pure_def, ih, List.replicate_succ]
  cases k with
  | zero => exact absurd hk (by decide)
  | succ j =>
    cases hp : payload s with
    | error e =>
      simp only [iterThunk, memoStep, KM.bind_def, hp]
    | ok vs =>
      simp only [iterThunk, memoStep, KM.bind_def, KM.pure_def, hp, hit,
        List.replicate_succ]

/-- Claim C8, witness: the memoized thunk over the byte-string payload
decode of `h'0506'` invoked twice from offset 0 — the payload is read
once (final cursor 2, as after one normal decode) and both invocations
return `h'0506'`. -/
theorem C8_witness :
    iterThunk (memoStep (memReadBytes [5, 6] 2 >>= fun bs => pure (CBORValue.bytes bs))) 2 none 0 =
      .ok (([.bytes [5, 6], .bytes [5, 6]], some (.bytes [5, 6])), 2) := by
  rw [C8_thunk_memoized (memReadBytes [5, 6] 2 >>= fun bs => pure (CBORValue.bytes bs)) 2
    (by decide) 0]
  rfl

/-! ## Inversion and preservation infrastructure -/

theorem bind_ok_iff {x : KM σ α} {f : α → KM σ β} {s : σ} {r : β × σ} :
    (x >>= f) s = .ok r ↔ ∃ a s1, x s = .ok (a, s1) ∧ f a s1 = .ok r := by
  rw [KM.bind_def]
  cases hx : x s with
  | error e => simp
  | ok p =>
    constructor
    · intro h
      exact ⟨p.1, p.2, rfl, h⟩
    · rintro ⟨a, s1, he, hf⟩
      cases he
      exact hf

theorem pure_ok_iff {a : α} {s : σ} {r : α × σ} :
    (pure a : KM σ α) s = .ok r ↔ r = (a, s) := by
  rw [KM.pure_def]
  constructor
  · intro h; cases h; rfl
  · intro h; rw [h]

theorem throw_not_ok {e : DErr} {s : σ} {r : α × σ} :
    KM.throw e s ≠ .ok r := by
  intro h
  exact Except.noConfusion h

/-- An action whose successful runs leave `keyPath` unchanged. -/
def KeepsPath (m : GM κ α) : Prop :=
  ∀ s r s', m s = .ok (r, s') → s'.keyPath = s.keyPath

theorem keeps_bind {x : GM κ α} {f : α → GM κ β}
    (hx : KeepsPath x) (hf : ∀ a, KeepsPath (f a)) : KeepsPath (x >>= f) := by
  intro s r s' h
  rcases bind_ok_iff.mp h with ⟨a, s1, hxa, hfa⟩
  rw [hf a s1 r s' hfa, hx s a s1 hxa]

theorem keeps_pure (a : α) : KeepsPath (pure a : GM κ α) := by
  intro s r s' h
  rcases pure_ok_iff.mp h with h'
  cases h'
  rfl

theorem keeps_throw (e : DErr) : KeepsPath (KM.throw e : GM κ α) := by
  intro s r s' h
  exact absurd h throw_not_ok

theorem keeps_liftCore (act : KM κ α) : KeepsPath (liftCore act) := by
  intro s r s' h
  unfold liftCore at h
  cases hact : act s.core with
  | error e => rw [hact] at h; exact absurd h (by simp)
  | ok p => rw [hact] at h; cases h; rfl

theorem keeps_ite {c : Prop} [Decidable c] {x y : GM κ α}
    (hx : KeepsPath x) (hy : KeepsPath y) : KeepsPath (if c then x else y) := by
  by_cases hc : c
  · rw [if_pos hc]; exact hx
  · rw [if_neg hc]; exact hy

theorem keeps_getArgumentG (P : Prims κ) (ai : Nat) : KeepsPath (getArgumentG P ai) := by
  unfold getArgumentG
  refine keeps_ite (keeps_pure _) (keeps_ite ?_ (keeps_ite ?_
    (keeps_ite ?_ (keeps_ite ?_ (keeps_ite (keeps_throw _)
      (keeps_throw _)))))) <;>
    exact keeps_bind (keeps_liftCore _) fun _ => keeps_pure _

theorem keeps_getEnv : KeepsPath (getEnv : GM κ (Bool × List Key)) := by
  intro s r s' h
  unfold getEnv at h
  cases h
  rfl

theorem keeps_setIsKey (b : Bool) : KeepsPath (setIsKey b : GM κ Unit) := by
  intro s r s' h
  unfold setIsKey at h
  cases h
  rfl

theorem keeps_repeatM {act : GM κ Unit} (hact : KeepsPath act) (n : Nat) :
    KeepsPath (repeatM act n) := by
  induction n with
  | zero => exact keeps_pure _
  | succ n ih => exact keeps_bind hact fun _ => ih

theorem keeps_memoStep {payload : GM κ CBORValue} (hp : KeepsPath payload)
    (memo : Option CBORValue) : KeepsPath (memoStep payload memo) := by
  cases memo with
  | none => exact keeps_bind hp fun v => keeps_pure _
  | some v => exact keeps_pure _

theorem keeps_iterThunk {cb : Option CBORValue → GM κ (CBORValue × Option CBORValue)}
    (hcb : ∀ memo, KeepsPath (cb memo)) (k : Nat) (memo : Option CBORValue) :
    KeepsPath (iterThunk cb k memo) := by
  induction k generalizing memo with
  | zero => exact keeps_pure _
  | succ k ih =>
    exact keeps_bind (hcb memo) fun r => keeps_bind (ih r.2) fun r2 => keeps_pure _

theorem keeps_runPayloadHook {scr? : Option Script} {payload : GM κ CBORValue}
    {skip : GM κ Unit} (hp : KeepsPath payload) (hs : KeepsPath skip) :
    KeepsPath (runPayloadHook scr? payload skip) := by
  cases scr? with
  | none => exact keeps_bind (keeps_memoStep hp none) fun r => keeps_pure _
  | some scr =>
    refine keeps_bind (keeps_iterThunk (fun m => keeps_memoStep hp m) _ none)
      fun r => ?_
    cases scr.reply r.1 with
    | some val =>
      cases r.2 with
      | none => exact keeps_bind hs fun _ => keeps_pure _
      | some _ => exact keeps_pure _
    | none => exact keeps_bind (keeps_memoStep hp r.2) fun r' => keeps_pure _

theorem keeps_runKeyHook {scr? : Option KeyScript} {payload : GM κ CBORValue}
    {skip : GM κ Unit} (hp : KeepsPath payload) (hs : KeepsPath skip) :
    KeepsPath (runKeyHook scr? payload skip) := by
  cases scr? with
  | none => exact keeps_bind (keeps_memoStep hp none) fun r => keeps_pure _
  | some scr =>
    refine keeps_bind (keeps_iterThunk (fun m => keeps_memoStep hp m) _ none)
      fun r => ?_
    cases scr.reply r.1 with
    | some val =>
      cases r.2 with
      | none => exact keeps_bind hs fun _ => keeps_pure _
      | some _ => exact keeps_pure _
    | none => exact keeps_bind (keeps_memoStep hp r.2) fun r' => keeps_pure _

theorem keeps_arrLoop {dec : GM κ CBORValue} (hdec : KeepsPath dec) :
    ∀ (n i : Nat) (acc : List CBORValue), KeepsPath (arrLoop dec i n acc) := by
  intro n
  induction n with
  | zero => intro i acc; exact keeps_pure _
  | succ n ih =>
    intro i acc s r s' h
    rw [arrLoop] at h
    rcases bind_ok_iff.mp h with ⟨_, s1, h1, h'⟩
    rcases bind_ok_iff.mp h' with ⟨v, s2, h2, h''⟩
    rcases bind_ok_iff.mp h'' with ⟨_, s3, h3, h4⟩
    have e1 : s1 = ⟨s.core, s.isKey, s.keyPath ++ [Key.idx i]⟩ := by
      unfold pushKeyG at h1
      cases h1
      rfl
    have e2 : s2.keyPath = s1.keyPath := hdec _ _ _ h2
    have e3 : s3 = ⟨s2.core, s2.isKey, s2.keyPath.dropLast⟩ := by
      unfold popKeyG at h3
      cases h3
      rfl
    have e4 : s'.keyPath = s3.keyPath := ih (i + 1) (acc ++ [v]) _ _ _ h4
    rw [e4, e3]
    simp [e2, e1]

theorem keeps_mapLoop {dec : GM κ CBORValue} (hdec : KeepsPath dec) (dup : Bool) :
    ∀ (n : Nat) (acc : List (List Nat × CBORValue)), KeepsPath (mapLoop dec dup n acc) := by
  intro n
  induction n with
  | zero => intro acc; exact keeps_pure _
  | succ n ih =>
    intro acc s r s' h
    rw [mapLoop] at h
    rcases bind_ok_iff.mp h with ⟨_, s1, h1, h'⟩
    rcases bind_ok_iff.mp h' with ⟨key, s2, h2, h''⟩
    rcases bind_ok_iff.mp h'' with ⟨_, s3, h3, h4⟩
    have e1 : s1.keyPath = s.keyPath := keeps_setIsKey true _ _ _ h1
    have e2 : s2.keyPath = s1.keyPath := hdec _ _ _ h2
    have e3 : s3.keyPath = s2.keyPath := keeps_setIsKey false _ _ _ h3
    cases key
    case str ks =>
      dsimp only at h4
      by_cases hc : (dup = true ∧ ks ∈ acc.map Prod.fst)
      · rw [if_pos hc] at h4
        rcases bind_ok_iff.mp h4 with ⟨_, s4, hthrow, _⟩
        exact absurd hthrow throw_not_ok
      · rw [if_neg hc] at h4
        rcases bind_ok_iff.mp h4 with ⟨_, s4, hp, h5⟩
        have e4 : s4 = s3 := by
          cases pure_ok_iff.mp hp
          rfl
        rcases bind_ok_iff.mp h5 with ⟨_, s5, hpush, h6⟩
        rcases bind_ok_iff.mp h6 with ⟨v, s6, hdecv, h7⟩
        rcases bind_ok_iff.mp h7 with ⟨_, s7, hpop, h8⟩
        have e5 : s5 = ⟨s4.core, s4.isKey, s4.keyPath ++ [Key.str ks]⟩ := by
          unfold pushKeyG at hpush
          cases hpush
          rfl
        have e6 : s6.keyPath = s5.keyPath := hdec _ _ _ hdecv
        have e7 : s7 = ⟨s6.core, s6.isKey, s6.keyPath.dropLast⟩ := by
          unfold popKeyG at hpop
          cases hpop
          rfl
        have e8 : s'.keyPath = s7.keyPath := ih _ _ _ _ h8
        rw [e8, e7]
        simp [e6, e5, e4, e3, e2, e1]
    all_goals exact absurd h4 throw_not_ok

theorem keeps_skipValueG (P : Prims κ) (opts : DecodeOptions) :
    ∀ fuel, KeepsPath (skipValueG P opts fuel) := by
  intro fuel
  induction fuel with
  | zero => exact keeps_throw _
  | succ fuel ih =>
    rw [skipValueG]
    refine keeps_bind (keeps_liftCore _) fun ib => ?_
    refine keeps_ite (keeps_bind (keeps_getArgumentG _ _) fun _ => keeps_pure _) ?_
    refine keeps_ite (keeps_bind (keeps_getArgumentG _ _) fun a => keeps_liftCore _) ?_
    refine keeps_ite (keeps_bind (keeps_getArgumentG _ _) fun a => keeps_repeatM ih _) ?_
    refine keeps_ite (keeps_bind (keeps_getArgumentG _ _) fun a => keeps_repeatM ih _) ?_
    refine keeps_ite (keeps_throw _) ?_
    refine keeps_ite ?_ (keeps_pure _)
    refine keeps_ite (keeps_pure _) ?_
    refine keeps_ite (keeps_ite (keeps_pure _) (keeps_throw _)) ?_
    refine keeps_ite (keeps_throw _) ?_
    refine keeps_ite (keeps_liftCore _) ?_
    refine keeps_ite (keeps_liftCore _) ?_
    refine keeps_ite (keeps_liftCore _) ?_
    exact keeps_ite (keeps_throw _) (keeps_throw _)

theorem keeps_decodeValueG (P : Prims κ) (opts : DecodeOptions) :
    ∀ fuel, KeepsPath (decodeValueG P opts fuel) := by
  intro fuel
  induction fuel with
  | zero => exact keeps_throw _
  | succ fuel ih =>
    rw [decodeValueG]
    refine keeps_bind (keeps_liftCore _) fun ib => ?_
    refine keeps_bind keeps_getEnv fun env => ?_
    refine keeps_ite (keeps_bind (keeps_getArgumentG _ _) fun a => ?_) ?_
    · cases a.uint64 with
      | some u => exact keeps_ite (keeps_throw _) (keeps_pure _)
      | none => exact keeps_pure _
    refine keeps_ite (keeps_bind (keeps_getArgumentG _ _) fun a => ?_) ?_
    · cases a.uint64 with
      | some u => exact keeps_ite (keeps_throw _) (keeps_pure _)
      | none => exact keeps_pure _
    refine keeps_ite (keeps_bind (keeps_getArgumentG _ _) fun a =>
      keeps_runPayloadHook (keeps_bind (keeps_liftCore _) fun _ => keeps_pure _)
        (keeps_liftCore _)) ?_
    refine keeps_ite (keeps_bind (keeps_getArgumentG _ _) fun a =>
      keeps_ite
        (keeps_runKeyHook (keeps_bind (keeps_liftCore _) fun _ => keeps_pure _)
          (keeps_liftCore _))
        (keeps_runPayloadHook (keeps_bind (keeps_liftCore _) fun _ => keeps_pure _)
          (keeps_liftCore _))) ?_
    refine keeps_ite (keeps_bind (keeps_getArgumentG _ _) fun a =>
      keeps_runPayloadHook (keeps_bind (keeps_arrLoop ih _ _ _) fun _ => keeps_pure _)
        (keeps_repeatM (keeps_skipValueG P opts fuel) _)) ?_
    refine keeps_ite (keeps_bind (keeps_getArgumentG _ _) fun a =>
      keeps_runPayloadHook (keeps_bind (keeps_mapLoop ih _ _ _) fun _ => keeps_pure _)
        (keeps_repeatM (keeps_skipValueG P opts fuel) _)) ?_
    refine keeps_ite (keeps_throw _) ?_
    refine keeps_ite ?_ (keeps_throw _)
    refine keeps_ite (keeps_pure _) ?_
    refine keeps_ite (keeps_pure _) ?_
    refine keeps_ite (keeps_pure _) ?_
    refine keeps_ite (keeps_ite (keeps_pure _) (keeps_throw _)) ?_
    refine keeps_ite (keeps_throw _) ?_
    refine keeps_ite (keeps_ite (keeps_bind (keeps_liftCore _) fun _ => keeps_pure _)
      (keeps_throw _)) ?_
    refine keeps_ite (keeps_ite (keeps_bind (keeps_liftCore _) fun _ => keeps_pure _)
      (keeps_throw _)) ?_
    refine keeps_ite (keeps_bind (keeps_liftCore _) fun _ => keeps_pure _) ?_
    exact keeps_ite (keeps_throw _) (keeps_throw _)

/-! ## Claim C10 — `keyPath` restoration -/

/-- A hook that, without calling its thunk, replaces the item exactly
when the received key path equals `target` — used to observe which path
a nested hook invocation receives. -/
def spyScript (target : List Key) (r : CBORValue) : Nat → String → List Key → Script :=
  fun _ _ kp => ⟨0, fun _ => if kp = target then some r else none⟩

/-- Claim C10: every `decodeValue` call that returns normally — any
primitives, any options and hooks, including the replacement-and-skip
path — leaves the environment's `keyPath` exactly as it was on entry
(first conjunct, over both decoder cores).  Consequently a hook sees the
root-to-item path: decoding `[[5]]` (bytes `81 81 05`) with an `onValue`
hook that replaces exactly when its received path is `[0, 0]` replaces
exactly the inner `5` (second conjunct). -/
theorem C10_keyPath_restored :
    (∀ (κ : Type) (P : Prims κ) (opts : DecodeOptions) (fuel : Nat)
        (s : GSt κ) (v : CBORValue) (s' : GSt κ),
      decodeValueG P opts fuel s = .ok (v, s') → s'.keyPath = s.keyPath) ∧
    decode ⟨true, 16, none, some (spyScript [Key.idx 0, Key.idx 0] (.int 42))⟩
        [0x81, 0x81, 0x05] 4 = .ok (.arr [.arr [.int 42]]) := by
  constructor
  · intro κ P opts fuel s v s' h
    exact keeps_decodeValueG P opts fuel s v s' h
  · rfl

/-- Claim C10, witness: the preservation conjunct applied to the
concrete run decoding `81 05` (the array `[5]`) in memory from a fresh
environment. -/
theorem C10_witness :
    (⟨2, false, []⟩ : GSt Nat).keyPath = (initGSt (0 : Nat)).keyPath :=
  C10_keyPath_restored.1 Nat (memPrims [0x81, 0x05]) defaultOpts 3
    (initGSt 0) (.arr [.int 5]) ⟨2, false, []⟩ rfl

/-! ## Claim C9 infrastructure — monotone cursor and trailing-byte
locality of the in-memory decoder

`MemSafe F data` packages the two facts every in-memory decoding step
enjoys: successful runs never move the cursor backwards, and a run that
ends at or before `data.length` is oblivious to any bytes appended after
`data`.  The two must travel together: the extension property of a
sequence of steps needs the monotonicity of its tail. -/

theorem slice_append (data ext : List Nat) (off n : Nat) (h : off + n ≤ data.length) :
    ((data ++ ext).drop off).take n = (data.drop off).take n := by
  rw [List.drop_append_of_le_length (by omega)]
  exact List.take_append_of_le_length (by rw [List.length_drop]; omega)

theorem readBE_append (data ext : List Nat) (off k : Nat) (h : off + k ≤ data.length) :
    readBE (data ++ ext) off k = readBE data off k := by
  unfold readBE
  rw [slice_append data ext off k h]

def MemSafe (F : List Nat → GM Nat α) (data : List Nat) : Prop :=
  ∀ s r s', F data s = .ok (r, s') →
    s.core ≤ s'.core ∧
    ∀ ext, s'.core ≤ data.length → F (data ++ ext) s = .ok (r, s')

theorem msafe_bind {Fx : List Nat → GM Nat α} {Ff : α → List Nat → GM Nat β}
    {data : List Nat} (hx : MemSafe Fx data) (hf : ∀ a, MemSafe (Ff a) data) :
    MemSafe (fun d => Fx d >>= fun a => Ff a d) data := by
  intro s r s' h
  rcases bind_ok_iff.mp h with ⟨a, s1, h1, h2⟩
  have m1 := hx s a s1 h1
  have m2 := hf a s1 r s' h2
  refine ⟨le_trans m1.1 m2.1, fun ext hle => ?_⟩
  exact bind_ok_iff.mpr ⟨a, s1, m1.2 ext (le_trans m2.1 hle), m2.2 ext hle⟩

theorem msafe_pure (a : α) (data : List Nat) : MemSafe (fun _ => (pure a : GM Nat α)) data := by
  intro s r s' h
  cases pure_ok_iff.mp h
  exact ⟨le_refl _, fun ext _ => pure_ok_iff.mpr rfl⟩

theorem msafe_throw (e : DErr) (data : List Nat) :
    MemSafe (fun _ => (KM.throw e : GM Nat α)) data := by
  intro s r s' h
  exact absurd h throw_not_ok

theorem msafe_ite {c : Prop} [Decidable c] {Fx Fy : List Nat → GM Nat α} {data : List Nat}
    (hx : MemSafe Fx data) (hy : MemSafe Fy data) :
    MemSafe (fun d => if c then Fx d else Fy d) data := by
  by_cases hc : c
  · simpa [hc] using hx
  · simpa [hc] using hy

/-- Environment-only operations do not look at the data and do not move
the cursor. -/
theorem msafe_envOp (m : GM Nat α) (data : List Nat)
    (hcore : ∀ s r s', m s = .ok (r, s') → s'.core = s.core) :
    MemSafe (fun _ => m) data := by
  intro s r s' h
  exact ⟨le_of_eq (hcore s r s' h).symm, fun ext _ => h⟩

theorem core_mk (c : κ) (b : Bool) (p : List Key) : (GSt.mk c b p).core = c := rfl

theorem msafe_readUint (data : List Nat) (k : Nat) :
    MemSafe (fun d => liftCore (memReadUint d k)) data := by
  intro s r s' h
  simp only [liftCore, memReadUint] at h
  by_cases hb : s.core + k ≤ data.length
  · rw [if_pos hb] at h
    dsimp only at h
    cases h
    refine ⟨by simp only [core_mk]; omega, fun ext hle => ?_⟩
    simp only [core_mk] at hle
    simp only [liftCore, memReadUint, List.length_append]
    rw [if_pos (by omega), readBE_append data ext s.core k hb]
  · rw [if_neg hb] at h
    exact Except.noConfusion h

theorem msafe_readBytes (data : List Nat) (n : Nat) :
    MemSafe (fun d => liftCore (memReadBytes d n)) data := by
  intro s r s' h
  simp only [liftCore, memReadBytes] at h
  cases h
  refine ⟨by simp only [core_mk]; omega, fun ext hle => ?_⟩
  simp only [core_mk] at hle
  simp only [liftCore, memReadBytes]
  rw [slice_append data ext s.core n (by omega)]

theorem msafe_readStr (data : List Nat) (n : Nat) :
    MemSafe (fun d => liftCore (memReadStr d n)) data := by
  intro s r s' h
  simp only [liftCore, memReadStr] at h
  cases h
  refine ⟨by simp only [core_mk]; omega, fun ext hle => ?_⟩
  simp only [core_mk] at hle
  simp only [liftCore, memReadStr]
  rw [slice_append data ext s.core n (by omega)]

theorem msafe_skipBytes (data : List Nat) (n : Nat) :
    MemSafe (fun _ => liftCore (memSkipBytes n) : List Nat → GM Nat Unit) data := by
  intro s r s' h
  have h' := h
  simp only [liftCore, memSkipBytes] at h'
  cases h'
  exact ⟨by simp only [core_mk]; omega, fun ext _ => h⟩

theorem msafe_getArgumentG (data : List Nat) (ai : Nat) :
    MemSafe (fun d => getArgumentG (memPrims d) ai) data := by
  simp only [getArgumentG, memPrims]
  refine msafe_ite (msafe_pure _ _) (msafe_ite ?_ (msafe_ite ?_ (msafe_ite ?_ (msafe_ite ?_
    (msafe_ite (msafe_throw _ _) (msafe_throw _ _)))))) <;>
    exact msafe_bind (msafe_readUint data _) fun v => msafe_pure _ _

theorem msafe_pushKey (data : List Nat) (k : Key) :
    MemSafe (fun _ => (pushKeyG k : GM Nat Unit)) data :=
  msafe_envOp _ _ fun s r s' h => by
    unfold pushKeyG at h
    cases h
    rfl

theorem msafe_popKey (data : List Nat) :
    MemSafe (fun _ => (popKeyG : GM Nat Unit)) data :=
  msafe_envOp _ _ fun s r s' h => by
    unfold popKeyG at h
    cases h
    rfl

theorem msafe_setIsKey (data : List Nat) (b : Bool) :
    MemSafe (fun _ => (setIsKey b : GM Nat Unit)) data :=
  msafe_envOp _ _ fun s r s' h => by
    unfold setIsKey at h
    cases h
    rfl

theorem msafe_getEnv (data : List Nat) :
    MemSafe (fun _ => (getEnv : GM Nat (Bool × List Key))) data :=
  msafe_envOp _ _ fun s r s' h => by
    unfold getEnv at h
    cases h
    rfl

theorem msafe_memoStep {FP : List Nat → GM Nat CBORValue} {data : List Nat}
    (hp : MemSafe FP data) (memo : Option CBORValue) :
    MemSafe (fun d => memoStep (FP d) memo) data := by
  cases memo with
  | none => exact msafe_bind hp fun v => msafe_pure _ _
  | some v => exact msafe_pure _ _

theorem msafe_iterThunk {CB : List Nat → Option CBORValue → GM Nat (CBORValue × Option CBORValue)}
    {data : List Nat} (hcb : ∀ memo, MemSafe (fun d => CB d memo) data) (k : Nat) :
    ∀ memo, MemSafe (fun d => iterThunk (CB d) k memo) data := by
  induction k with
  | zero => intro memo; exact msafe_pure _ _
  | succ k ih =>
    intro memo
    simp only [iterThunk]
    exact msafe_bind (hcb memo) fun r => msafe_bind (ih r.2) fun r2 => msafe_pure _ _

theorem msafe_runPayloadHook {scr? : Option Script} {FP : List Nat → GM Nat CBORValue}
    {FS : List Nat → GM Nat Unit} {data : List Nat}
    (hp : MemSafe FP data) (hs : MemSafe FS data) :
    MemSafe (fun d => runPayloadHook scr? (FP d) (FS d)) data := by
  cases scr? with
  | none => exact msafe_bind (msafe_memoStep hp none) fun r => msafe_pure _ _
  | some scr =>
    simp only [runPayloadHook]
    refine msafe_bind (msafe_iterThunk (fun m => msafe_memoStep hp m) _ none) fun r => ?_
    cases scr.reply r.1 with
    | some val =>
      cases r.2 with
      | none => exact msafe_bind hs fun _ => msafe_pure _ _
      | some _ => exact msafe_pure _ _
    | none => exact msafe_bind (msafe_memoStep hp r.2) fun r' => msafe_pure _ _

theorem msafe_runKeyHook {scr? : Option KeyScript} {FP : List Nat → GM Nat CBORValue}
    {FS : List Nat → GM Nat Unit} {data : List Nat}
    (hp : MemSafe FP data) (hs : MemSafe FS data) :
    MemSafe (fun d => runKeyHook scr? (FP d) (FS d)) data := by
  cases scr? with
  | none => exact msafe_bind (msafe_memoStep hp none) fun r => msafe_pure _ _
  | some scr =>
    simp only [runKeyHook]
    refine msafe_bind (msafe_iterThunk (fun m => msafe_memoStep hp m) _ none) fun r => ?_
    cases scr.reply r.1 with
    | some ks =>
      cases r.2 with
      | none => exact msafe_bind hs fun _ => msafe_pure _ _
      | some _ => exact msafe_pure _ _
    | none => exact msafe_bind (msafe_memoStep hp r.2) fun r' => msafe_pure _ _

theorem msafe_repeatM {FA : List Nat → GM Nat Unit} {data : List Nat}
    (ha : MemSafe FA data) (n : Nat) : MemSafe (fun d => repeatM (FA d) n) data := by
  induction n with
  | zero => exact msafe_pure _ _
  | succ n ih =>
    simp only [repeatM]
    exact msafe_bind ha fun _ => ih

theorem msafe_arrLoop {FD : List Nat → GM Nat CBORValue} {data : List Nat}
    (hdec : MemSafe FD data) :
    ∀ (n i : Nat) (acc : List CBORValue), MemSafe (fun d => arrLoop (FD d) i n acc) data := by
  intro n
  induction n with
  | zero => intro i acc; exact msafe_pure _ _
  | succ n ih =>
    intro i acc
    simp only [arrLoop]
    refine msafe_bind (msafe_pushKey data _) fun _ => ?_
    refine msafe_bind hdec fun v => ?_
    exact msafe_bind (msafe_popKey data) fun _ => ih (i + 1) (acc ++ [v])

theorem msafe_mapLoop {FD : List Nat → GM Nat CBORValue} {data : List Nat}
    (hdec : MemSafe FD data) (dup : Bool) :
    ∀ (n : Nat) (acc : List (List Nat × CBORValue)),
      MemSafe (fun d => mapLoop (FD d) dup n acc) data := by
  intro n
  induction n with
  | zero => intro acc; exact msafe_pure _ _
  | succ n ih =>
    intro acc
    simp only [mapLoop]
    refine msafe_bind (msafe_setIsKey data true) fun _ => ?_
    refine msafe_bind hdec fun key => ?_
    refine msafe_bind (msafe_setIsKey data false) fun _ => ?_
    cases key
    case str ks =>
      have hjp : MemSafe (fun d => (pushKeyG (Key.str ks) : GM Nat Unit) >>= fun _ =>
          FD d >>= fun v => popKeyG >>= fun _ => mapLoop (FD d) dup n (jsObjSet acc ks v)) data :=
        msafe_bind (msafe_pushKey data _) fun _ => msafe_bind hdec fun v =>
          msafe_bind (msafe_popKey data) fun _ => ih (jsObjSet acc ks v)
      refine msafe_ite (msafe_bind (msafe_throw _ _) fun _ => hjp) ?_
      exact msafe_bind (msafe_pure () data) fun _ => hjp
    all_goals exact msafe_throw _ _

theorem msafe_skipValueG (opts : DecodeOptions) (data : List Nat) :
    ∀ fuel, MemSafe (fun d => skipValueG (memPrims d) opts fuel) data := by
  intro fuel
  induction fuel with
  | zero => exact msafe_throw _ _
  | succ fuel ih =>
    simp only [skipValueG, memPrims]
    refine msafe_bind (msafe_readUint data 1) fun ib => ?_
    refine msafe_ite (msafe_bind (msafe_getArgumentG data _) fun _ => msafe_pure _ _) ?_
    refine msafe_ite (msafe_bind (msafe_getArgumentG data _) fun a => msafe_skipBytes data _) ?_
    refine msafe_ite (msafe_bind (msafe_getArgumentG data _) fun a => msafe_repeatM ih _) ?_
    refine msafe_ite (msafe_bind (msafe_getArgumentG data _) fun a => msafe_repeatM ih _) ?_
    refine msafe_ite (msafe_throw _ _) ?_
    refine msafe_ite ?_ (msafe_pure _ _)
    refine msafe_ite (msafe_pure _ _) ?_
    refine msafe_ite (msafe_ite (msafe_pure _ _) (msafe_throw _ _)) ?_
    refine msafe_ite (msafe_throw _ _) ?_
    refine msafe_ite (msafe_skipBytes data _) ?_
    refine msafe_ite (msafe_skipBytes data _) ?_
    refine msafe_ite (msafe_skipBytes data _) ?_
    exact msafe_ite (msafe_throw _ _) (msafe_throw _ _)

theorem msafe_decodeValueG (opts : DecodeOptions) (data : List Nat) :
    ∀ fuel, MemSafe (fun d => decodeValueG (memPrims d) opts fuel) data := by
  intro fuel
  induction fuel with
  | zero => exact msafe_throw _ _
  | succ fuel ih =>
    simp only [decodeValueG, memPrims]
    refine msafe_bind (msafe_readUint data 1) fun ib => ?_
    refine msafe_bind (msafe_getEnv data) fun env => ?_
    refine msafe_ite (msafe_bind (msafe_getArgumentG data _) fun a => ?_) ?_
    · cases a.uint64 with
      | some u => exact msafe_ite (msafe_throw _ _) (msafe_pure _ _)
      | none => exact msafe_pure _ _
    refine msafe_ite (msafe_bind (msafe_getArgumentG data _) fun a => ?_) ?_
    · cases a.uint64 with
      | some u => exact msafe_ite (msafe_throw _ _) (msafe_pure _ _)
      | none => exact msafe_pure _ _
    refine msafe_ite (msafe_bind (msafe_getArgumentG data _) fun a =>
      msafe_runPayloadHook (msafe_bind (msafe_readBytes data _) fun _ => msafe_pure _ _)
        (msafe_skipBytes data _)) ?_
    refine msafe_ite (msafe_bind (msafe_getArgumentG data _) fun a =>
      msafe_ite
        (msafe_runKeyHook (msafe_bind (msafe_readStr data _) fun _ => msafe_pure _ _)
          (msafe_skipBytes data _))
        (msafe_runPayloadHook (msafe_bind (msafe_readStr data _) fun _ => msafe_pure _ _)
          (msafe_skipBytes data _))) ?_
    refine msafe_ite (msafe_bind (msafe_getArgumentG data _) fun a =>
      msafe_runPayloadHook (msafe_bind (msafe_arrLoop ih _ _ _) fun _ => msafe_pure _ _)
        (msafe_repeatM (msafe_skipValueG opts data fuel) _)) ?_
    refine msafe_ite (msafe_bind (msafe_getArgumentG data _) fun a =>
      msafe_runPayloadHook (msafe_bind (msafe_mapLoop ih _ _ _) fun _ => msafe_pure _ _)
        (msafe_repeatM (msafe_skipValueG opts data fuel) _)) ?_
    refine msafe_ite (msafe_throw _ _) ?_
    refine msafe_ite ?_ (msafe_throw _ _)
    refine msafe_ite (msafe_pure _ _) ?_
    refine msafe_ite (msafe_pure _ _) ?_
    refine msafe_ite (msafe_pure _ _) ?_
    refine msafe_ite (msafe_ite (msafe_pure _ _) (msafe_throw _ _)) ?_
    refine msafe_ite (msafe_throw _ _) ?_
    refine msafe_ite (msafe_ite (msafe_bind (msafe_readUint data 2) fun _ => msafe_pure _ _)
      (msafe_throw _ _)) ?_
    refine msafe_ite (msafe_ite (msafe_bind (msafe_readUint data 4) fun _ => msafe_pure _ _)
      (msafe_throw _ _)) ?_
    refine msafe_ite (msafe_bind (msafe_readUint data 8) fun _ => msafe_pure _ _) ?_
    exact msafe_ite (msafe_throw _ _) (msafe_throw _ _)

/-! ## Claim C9 — trailing bytes after the first item are ignored -/

/-- Claim C9: `decode(data, options)` decodes exactly one value from the
front of the byte array and returns it; any bytes after the first
complete item (one whose decode ends at or before `data.length`) are
never inspected and never cause an error — appending arbitrary trailing
bytes leaves the result unchanged. -/
theorem C9_trailing_bytes_ignored (opts : DecodeOptions) (data : List Nat) (fuel : Nat)
    (v : CBORValue) (s' : GSt Nat)
    (h : decodeValueG (memPrims data) opts fuel (initGSt 0) = .ok (v, s'))
    (hend : s'.core ≤ data.length) (ext : List Nat) :
    decode opts data fuel = .ok v ∧ decode opts (data ++ ext) fuel = .ok v := by
  have hm := msafe_decodeValueG opts data fuel (initGSt 0) v s' h
  have h2 : decodeValueG (memPrims (data ++ ext)) opts fuel (initGSt 0) = .ok (v, s') :=
    hm.2 ext hend
  constructor
  · unfold decode
    rw [h]
  · unfold decode
    rw [h2]

/-- Claim C9, witness: decoding `01` followed by the junk bytes `FF AB`
still returns the integer 1 (an `FF` initial byte alone would raise
"invalid simple value"). -/
theorem C9_witness :
    decode defaultOpts [0x01] 2 = .ok (.int 1) ∧
    decode defaultOpts [0x01, 0xFF, 0xAB] 2 = .ok (.int 1) :=
  C9_trailing_bytes_ignored defaultOpts [0x01] 2 (.int 1) ⟨1, false, []⟩ rfl
    (by decide) [0xFF, 0xAB]

/-! ## Claim C3 infrastructure — skip walks exactly the decoded bytes

`skipValue` never reads or writes the traversal environment and moves
the core exactly like the corresponding decode; `CoreOp` captures
actions with that shape: the environment passes through untouched and
the run can be replayed under any environment. -/

theorem liftCore_ok_iff {act : KM κ α} {s : GSt κ} {r : α × GSt κ} :
    liftCore act s = .ok r ↔
      ∃ a c', act s.core = .ok (a, c') ∧ r = (a, ⟨c', s.isKey, s.keyPath⟩) := by
  unfold liftCore
  cases hact : act s.core with
  | error e => simp
  | ok p =>
    cases p with
    | mk a c' =>
      dsimp only
      constructor
      · intro h
        cases h
        exact ⟨a, c', rfl, rfl⟩
      · rintro ⟨a2, c2, h1, h2⟩
        cases h1
        rw [h2]

def CoreOp (m : GM κ α) : Prop :=
  ∀ s r s', m s = .ok (r, s') →
    s'.isKey = s.isKey ∧ s'.keyPath = s.keyPath ∧
    ∀ b p, m ⟨s.core, b, p⟩ = .ok (r, ⟨s'.core, b, p⟩)

theorem coreop_bind {x : GM κ α} {f : α → GM κ β}
    (hx : CoreOp x) (hf : ∀ a, CoreOp (f a)) : CoreOp (x >>= f) := by
  intro s r s' h
  rcases bind_ok_iff.mp h with ⟨a, s1, h1, h2⟩
  have m1 := hx s a s1 h1
  have m2 := hf a s1 r s' h2
  refine ⟨m2.1.trans m1.1, m2.2.1.trans m1.2.1, fun b p => ?_⟩
  refine bind_ok_iff.mpr ⟨a, ⟨s1.core, b, p⟩, m1.2.2 b p, ?_⟩
  have := m2.2.2 b p
  rwa [show (⟨s1.core, b, p⟩ : GSt κ) = ⟨s1.core, b, p⟩ from rfl] at this

theorem coreop_pure (a : α) : CoreOp (pure a : GM κ α) := by
  intro s r s' h
  cases pure_ok_iff.mp h
  exact ⟨rfl, rfl, fun b p => pure_ok_iff.mpr rfl⟩

theorem coreop_throw (e : DErr) : CoreOp (KM.throw e : GM κ α) := by
  intro s r s' h
  exact absurd h throw_not_ok

theorem coreop_ite {c : Prop} [Decidable c] {x y : GM κ α}
    (hx : CoreOp x) (hy : CoreOp y) : CoreOp (if c then x else y) := by
  by_cases hc : c
  · simpa [hc] using hx
  · simpa [hc] using hy

theorem coreop_liftCore (act : KM κ α) : CoreOp (liftCore act) := by
  intro s r s' h
  rcases liftCore_ok_iff.mp h with ⟨a, c', hact, hr⟩
  injection hr with h1 h2
  subst h1
  subst h2
  refine ⟨rfl, rfl, fun b p => ?_⟩
  exact liftCore_ok_iff.mpr ⟨_, _, hact, rfl⟩

theorem coreop_getArgumentG (P : Prims κ) (ai : Nat) : CoreOp (getArgumentG P ai) := by
  unfold getArgumentG
  refine coreop_ite (coreop_pure _) (coreop_ite ?_ (coreop_ite ?_ (coreop_ite ?_
    (coreop_ite ?_ (coreop_ite (coreop_throw _) (coreop_throw _)))))) <;>
    exact coreop_bind (coreop_liftCore _) fun v => coreop_pure _

theorem coreop_repeatM {act : GM κ Unit} (hact : CoreOp act) (n : Nat) :
    CoreOp (repeatM act n) := by
  induction n with
  | zero => exact coreop_pure _
  | succ n ih => exact coreop_bind hact fun _ => ih

theorem coreop_skipValueG (P : Prims κ) (opts : DecodeOptions) :
    ∀ fuel, CoreOp (skipValueG P opts fuel) := by
  intro fuel
  induction fuel with
  | zero => exact coreop_throw _
  | succ fuel ih =>
    rw [skipValueG]
    refine coreop_bind (coreop_liftCore _) fun ib => ?_
    refine coreop_ite (coreop_bind (coreop_getArgumentG _ _) fun _ => coreop_pure _) ?_
    refine coreop_ite (coreop_bind (coreop_getArgumentG _ _) fun a => coreop_liftCore _) ?_
    refine coreop_ite (coreop_bind (coreop_getArgumentG _ _) fun a => coreop_repeatM ih _) ?_
    refine coreop_ite (coreop_bind (coreop_getArgumentG _ _) fun a => coreop_repeatM ih _) ?_
    refine coreop_ite (coreop_throw _) ?_
    refine coreop_ite ?_ (coreop_pure _)
    refine coreop_ite (coreop_pure _) ?_
    refine coreop_ite (coreop_ite (coreop_pure _) (coreop_throw _)) ?_
    refine coreop_ite (coreop_throw _) ?_
    refine coreop_ite (coreop_liftCore _) ?_
    refine coreop_ite (coreop_liftCore _) ?_
    refine coreop_ite (coreop_liftCore _) ?_
    exact coreop_ite (coreop_throw _) (coreop_throw _)

/-- The byte-core alignment between the reading primitives and the skip
primitive that every decoder core of the repository satisfies: reading
`n` payload bytes (or a fixed-width value) moves the cursor exactly as
skipping them does. -/
structure SkipAligned (P : Prims κ) : Prop where
  bytesAligned : ∀ n c r c', P.readBytes n c = .ok (r, c') → P.skipBytes n c = .ok ((), c')
  strAligned : ∀ n c r c', P.readStr n c = .ok (r, c') → P.skipBytes n c = .ok ((), c')
  uintAligned : ∀ k c r c', P.readUint k c = .ok (r, c') → P.skipBytes k c = .ok ((), c')

theorem getEnv_ok {s s' : GSt κ} {r : Bool × List Key} (h : getEnv s = .ok (r, s')) :
    r = (s.isKey, s.keyPath) ∧ s' = s := by
  unfold getEnv at h
  cases h
  exact ⟨rfl, rfl⟩

/-- With no hook installed, the payload dispatch is just the payload. -/
theorem runPayloadHook_none_ok {payload : KM σ CBORValue} {sk : KM σ Unit}
    {s s' : σ} {v : CBORValue} :
    runPayloadHook none payload sk s = .ok (v, s') ↔ payload s = .ok (v, s') := by
  unfold runPayloadHook memoStep
  cases hp : payload s with
  | error e => simp [KM.bind_def, hp]
  | ok r =>
    cases r with
    | mk a t => simp [KM.bind_def, hp, KM.pure_def]

theorem runKeyHook_none_ok {payload : KM σ CBORValue} {sk : KM σ Unit}
    {s s' : σ} {v : CBORValue} :
    runKeyHook none payload sk s = .ok (v, s') ↔ payload s = .ok (v, s') := by
  unfold runKeyHook memoStep
  cases hp : payload s with
  | error e => simp [KM.bind_def, hp]
  | ok r =>
    cases r with
    | mk a t => simp [KM.bind_def, hp, KM.pure_def]

theorem skipAligned_mem (data : List Nat) : SkipAligned (memPrims data) := by
  constructor
  · intro n c r c' h
    unfold memPrims memReadBytes at h
    cases h
    rfl
  · intro n c r c' h
    unfold memPrims memReadStr at h
    cases h
    rfl
  · intro k c r c' h
    have h2 : memReadUint data k c = .ok (r, c') := h
    show memSkipBytes k c = .ok ((), c')
    unfold memReadUint at h2
    by_cases hb : c + k ≤ data.length
    · rw [if_pos hb] at h2
      cases h2
      rfl
    · rw [if_neg hb] at h2
      exact Except.noConfusion h2

theorem skipAligned_chunk : SkipAligned chunkPrims := by
  constructor
  · intro n c r c' h
    rcases bind_ok_iff.mp h with ⟨u, c1, halloc, hadv⟩
    exact bind_ok_iff.mpr ⟨u, c1, halloc,
      bind_ok_iff.mpr ⟨r, c', hadv, pure_ok_iff.mpr rfl⟩⟩
  · intro n c r c' h
    rcases bind_ok_iff.mp h with ⟨u, c1, halloc, hadv⟩
    exact bind_ok_iff.mpr ⟨u, c1, halloc,
      bind_ok_iff.mpr ⟨r, c', hadv, pure_ok_iff.mpr rfl⟩⟩
  · intro k c r c' h
    rcases bind_ok_iff.mp h with ⟨u, c1, halloc, h2⟩
    rcases bind_ok_iff.mp h2 with ⟨bs, c2, hadv, hpure⟩
    rcases pure_ok_iff.mp hpure with h3
    injection h3 with h4 h5
    subst h5
    exact bind_ok_iff.mpr ⟨u, c1, halloc,
      bind_ok_iff.mpr ⟨bs, _, hadv, pure_ok_iff.mpr rfl⟩⟩

theorem arr_skip_loop {dec : GM κ CBORValue} {skp : GM κ Unit}
    (hrel : ∀ (t : GSt κ) (v : CBORValue) (t' : GSt κ), dec t = .ok (v, t') →
      ∀ (b : Bool) (p : List Key), skp ⟨t.core, b, p⟩ = .ok ((), ⟨t'.core, b, p⟩)) :
    ∀ (n i : Nat) (acc vs : List CBORValue) (s s' : GSt κ),
      arrLoop dec i n acc s = .ok (vs, s') →
      ∀ (b : Bool) (p : List Key),
        repeatM skp n ⟨s.core, b, p⟩ = .ok ((), ⟨s'.core, b, p⟩) := by
  intro n
  induction n with
  | zero =>
    intro i acc vs s s' h b p
    rcases pure_ok_iff.mp h with h1
    injection h1 with h2 h3
    subst h3
    rfl
  | succ n ih =>
    intro i acc vs s s' h b p
    rw [arrLoop] at h
    rcases bind_ok_iff.mp h with ⟨_, s1, hpush, h⟩
    rcases bind_ok_iff.mp h with ⟨v, s2, hdec, h⟩
    rcases bind_ok_iff.mp h with ⟨_, s3, hpop, hrest⟩
    have e1 : s1 = ⟨s.core, s.isKey, s.keyPath ++ [Key.idx i]⟩ := by
      unfold pushKeyG at hpush
      cases hpush
      rfl
    have e3 : s3 = ⟨s2.core, s2.isKey, s2.keyPath.dropLast⟩ := by
      unfold popKeyG at hpop
      cases hpop
      rfl
    have hskip := hrel s1 v s2 hdec b p
    rw [e1] at hskip
    rw [repeatM]
    refine bind_ok_iff.mpr ⟨(), ⟨s2.core, b, p⟩, hskip, ?_⟩
    have := ih (i + 1) (acc ++ [v]) vs s3 s' hrest b p
    rw [e3] at this
    exact this

theorem map_skip_loop {dec : GM κ CBORValue} {skp : GM κ Unit}
    (hrel : ∀ (t : GSt κ) (v : CBORValue) (t' : GSt κ), dec t = .ok (v, t') →
      ∀ (b : Bool) (p : List Key), skp ⟨t.core, b, p⟩ = .ok ((), ⟨t'.core, b, p⟩))
    (dup : Bool) :
    ∀ (n : Nat) (acc vs : List (List Nat × CBORValue)) (s s' : GSt κ),
      mapLoop dec dup n acc s = .ok (vs, s') →
      ∀ (b : Bool) (p : List Key),
        repeatM skp (n * 2) ⟨s.core, b, p⟩ = .ok ((), ⟨s'.core, b, p⟩) := by
  intro n
  induction n with
  | zero =>
    intro acc vs s s' h b p
    rcases pure_ok_iff.mp h with h1
    injection h1 with h2 h3
    subst h3
    rfl
  | succ n ih =>
    intro acc vs s s' h b p
    rw [mapLoop] at h
    rcases bind_ok_iff.mp h with ⟨_, s1, hset1, h⟩
    rcases bind_ok_iff.mp h with ⟨key, s2, hkey, h⟩
    rcases bind_ok_iff.mp h with ⟨_, s3, hset2, h⟩
    have e1 : s1 = ⟨s.core, true, s.keyPath⟩ := by
      unfold setIsKey at hset1
      cases hset1
      rfl
    have e3 : s3 = ⟨s2.core, false, s2.keyPath⟩ := by
      unfold setIsKey at hset2
      cases hset2
      rfl
    revert hkey h
    cases key
    case str ks =>
      intro hkey h
      dsimp only at h
      by_cases hc : (dup = true ∧ ks ∈ acc.map Prod.fst)
      · rw [if_pos hc] at h
        exact absurd (bind_ok_iff.mp h).choose_spec.choose_spec.1 throw_not_ok
      · rw [if_neg hc] at h
        rcases bind_ok_iff.mp h with ⟨_, s4, hp4, h⟩
        have e4 : s4 = s3 := congrArg Prod.snd (pure_ok_iff.mp hp4)
        rcases bind_ok_iff.mp h with ⟨_, s5, hpush, h⟩
        rcases bind_ok_iff.mp h with ⟨v, s6, hdecv, h⟩
        rcases bind_ok_iff.mp h with ⟨_, s7, hpop, hrest⟩
        have e5 : s5 = ⟨s4.core, s4.isKey, s4.keyPath ++ [Key.str ks]⟩ := by
          unfold pushKeyG at hpush
          cases hpush
          rfl
        have e7 : s7 = ⟨s6.core, s6.isKey, s6.keyPath.dropLast⟩ := by
          unfold popKeyG at hpop
          cases hpop
          rfl
        have hskip1 := hrel s1 (CBORValue.str ks) s2 hkey b p
        rw [e1] at hskip1
        have hskip2 := hrel s5 v s6 hdecv b p
        rw [e5, e4, e3] at hskip2
        have hrest' := ih (jsObjSet acc ks v) vs s7 s' hrest b p
        rw [e7] at hrest'
        have hn : (n + 1) * 2 = (n * 2) + 1 + 1 := by omega
        rw [hn, repeatM, repeatM]
        refine bind_ok_iff.mpr ⟨(), ⟨s2.core, b, p⟩, hskip1, ?_⟩
        exact bind_ok_iff.mpr ⟨(), ⟨s6.core, b, p⟩, hskip2, hrest'⟩
    all_goals exact fun hkey h => absurd h throw_not_ok

/-- Replaying a successful fixed-payload read as the corresponding skip:
the common shape of the byte-string, text-string and float payloads. -/
theorem skip_after_read {P : Prims κ} {read : KM κ α} {n : Nat}
    (halign : ∀ c r c', read c = .ok (r, c') → P.skipBytes n c = .ok ((), c'))
    {g : α → β} {s : GSt κ} {v : β} {s' : GSt κ}
    (h : (do
        let bs ← liftCore read
        pure (g bs) : GM κ β) s = .ok (v, s')) (b : Bool) (p : List Key) :
    liftCore (P.skipBytes n) ⟨s.core, b, p⟩ = .ok ((), ⟨s'.core, b, p⟩) := by
  rcases bind_ok_iff.mp h with ⟨bs, s1, hrd, hp⟩
  rcases liftCore_ok_iff.mp hrd with ⟨a, c', hact, hr⟩
  injection hr with h1 h2
  subst h1
  subst h2
  rcases pure_ok_iff.mp hp with h3
  injection h3 with h4 h5
  subst h5
  exact liftCore_ok_iff.mpr ⟨(), c', halign _ _ _ hact, rfl⟩

/-- The skip routine replays a successful hook-free decode: whenever
`decodeValue` succeeds without hooks installed, `skipValue` over the
same bytes succeeds from any environment and moves the byte cursor to
exactly the same place.  `skipValue` only consults `allowUndefined`, so
the options of the two runs may differ elsewhere. -/
theorem skip_of_decode {P : Prims κ} (hal : SkipAligned P) (opts opts' : DecodeOptions)
    (hnv : opts.onValue = none) (hnk : opts.onKey = none)
    (hau : opts'.allowUndefined = opts.allowUndefined) :
    ∀ (fuel : Nat) (s : GSt κ) (v : CBORValue) (s' : GSt κ),
      decodeValueG P opts fuel s = .ok (v, s') →
      ∀ (b : Bool) (p : List Key),
        skipValueG P opts' fuel ⟨s.core, b, p⟩ = .ok ((), ⟨s'.core, b, p⟩) := by
  intro fuel
  induction fuel with
  | zero =>
    intro s v s' h
    exact absurd h throw_not_ok
  | succ fuel ih =>
    intro s v s' h b p
    rw [decodeValueG] at h
    rw [skipValueG]
    rcases bind_ok_iff.mp h with ⟨ib, s1, hib, h⟩
    rcases liftCore_ok_iff.mp hib with ⟨ib0, c1, hread, hr⟩
    injection hr with hr1 hr2
    subst hr1
    subst hr2
    rcases bind_ok_iff.mp h with ⟨env, s2, henv, h⟩
    obtain ⟨henv1, henv2⟩ := getEnv_ok henv
    subst henv2
    subst henv1
    dsimp only at h
    refine bind_ok_iff.mpr ⟨ib, ⟨c1, b, p⟩, liftCore_ok_iff.mpr ⟨ib, c1, hread, rfl⟩, ?_⟩
    dsimp only
    by_cases h0 : ib / 32 = 0
    · rw [if_pos h0] at h
      rw [if_pos (Or.inl h0)]
      rcases bind_ok_iff.mp h with ⟨a, s3, harg, h⟩
      refine bind_ok_iff.mpr ⟨a, ⟨s3.core, b, p⟩,
        (coreop_getArgumentG P (ib % 32) _ a s3 harg).2.2 b p, ?_⟩
      rcases a with ⟨av, au, asz⟩
      dsimp only at h
      cases au with
      | none =>
        dsimp only at h
        rcases pure_ok_iff.mp h with h1
        injection h1 with h2 h3
        subst h3
        exact pure_ok_iff.mpr rfl
      | some u =>
        dsimp only at h
        by_cases hm : maxSafeInteger < u
        · rw [if_pos hm] at h
          exact absurd h throw_not_ok
        · rw [if_neg hm] at h
          rcases pure_ok_iff.mp h with h1
          injection h1 with h2 h3
          subst h3
          exact pure_ok_iff.mpr rfl
    by_cases h1 : ib / 32 = 1
    · rw [if_neg h0, if_pos h1] at h
      rw [if_pos (Or.inr h1)]
      rcases bind_ok_iff.mp h with ⟨a, s3, harg, h⟩
      refine bind_ok_iff.mpr ⟨a, ⟨s3.core, b, p⟩,
        (coreop_getArgumentG P (ib % 32) _ a s3 harg).2.2 b p, ?_⟩
      rcases a with ⟨av, au, asz⟩
      dsimp only at h
      cases au with
      | none =>
        dsimp only at h
        rcases pure_ok_iff.mp h with h1
        injection h1 with h2 h3
        subst h3
        exact pure_ok_iff.mpr rfl
      | some u =>
        dsimp only at h
        by_cases hm : -1 - (u : Int) < minSafeInteger
        · rw [if_pos hm] at h
          exact absurd h throw_not_ok
        · rw [if_neg hm] at h
          rcases pure_ok_iff.mp h with h1
          injection h1 with h2 h3
          subst h3
          exact pure_ok_iff.mpr rfl
    by_cases h2 : ib / 32 = 2
    · rw [if_neg h0, if_neg h1, if_pos h2] at h
      rw [if_neg (fun hc => hc.elim h0 h1), if_pos (Or.inl h2)]
      rcases bind_ok_iff.mp h with ⟨a, s3, harg, h⟩
      rw [hnv, Option.map_none'] at h
      refine bind_ok_iff.mpr ⟨a, ⟨s3.core, b, p⟩,
        (coreop_getArgumentG P (ib % 32) _ a s3 harg).2.2 b p, ?_⟩
      exact skip_after_read (hal.bytesAligned a.value) (runPayloadHook_none_ok.mp h) b p
    by_cases h3 : ib / 32 = 3
    · rw [if_neg h0, if_neg h1, if_neg h2, if_pos h3] at h
      rw [if_neg (fun hc => hc.elim h0 h1), if_pos (Or.inr h3)]
      rcases bind_ok_iff.mp h with ⟨a, s3, harg, h⟩
      refine bind_ok_iff.mpr ⟨a, ⟨s3.core, b, p⟩,
        (coreop_getArgumentG P (ib % 32) _ a s3 harg).2.2 b p, ?_⟩
      by_cases hik : s.isKey = true
      · rw [if_pos hik, hnk, Option.map_none'] at h
        exact skip_after_read (hal.strAligned a.value) (runKeyHook_none_ok.mp h) b p
      · rw [if_neg hik, hnv, Option.map_none'] at h
        exact skip_after_read (hal.strAligned a.value) (runPayloadHook_none_ok.mp h) b p
    by_cases h4 : ib / 32 = 4
    · rw [if_neg h0, if_neg h1, if_neg h2, if_neg h3, if_pos h4] at h
      rw [if_neg (fun hc => hc.elim h0 h1), if_neg (fun hc => hc.elim h2 h3), if_pos h4]
      rcases bind_ok_iff.mp h with ⟨a, s3, harg, h⟩
      rw [hnv, Option.map_none'] at h
      refine bind_ok_iff.mpr ⟨a, ⟨s3.core, b, p⟩,
        (coreop_getArgumentG P (ib % 32) _ a s3 harg).2.2 b p, ?_⟩
      have hp := runPayloadHook_none_ok.mp h
      rcases bind_ok_iff.mp hp with ⟨xs, s4, hloop, hpure⟩
      rcases pure_ok_iff.mp hpure with h1
      injection h1 with h2' h3'
      subst h3'
      exact arr_skip_loop ih a.value 0 [] xs s3 _ hloop b p
    by_cases h5 : ib / 32 = 5
    · rw [if_neg h0, if_neg h1, if_neg h2, if_neg h3, if_neg h4, if_pos h5] at h
      rw [if_neg (fun hc => hc.elim h0 h1), if_neg (fun hc => hc.elim h2 h3),
        if_neg h4, if_pos h5]
      rcases bind_ok_iff.mp h with ⟨a, s3, harg, h⟩
      rw [hnv, Option.map_none'] at h
      refine bind_ok_iff.mpr ⟨a, ⟨s3.core, b, p⟩,
        (coreop_getArgumentG P (ib % 32) _ a s3 harg).2.2 b p, ?_⟩
      have hp := runPayloadHook_none_ok.mp h
      rcases bind_ok_iff.mp hp with ⟨es, s4, hloop, hpure⟩
      rcases pure_ok_iff.mp hpure with h1
      injection h1 with h2' h3'
      subst h3'
      exact map_skip_loop ih P.dupCheck a.value [] es s3 _ hloop b p
    by_cases h6 : ib / 32 = 6
    · rw [if_neg h0, if_neg h1, if_neg h2, if_neg h3, if_neg h4, if_neg h5, if_pos h6] at h
      exact absurd h throw_not_ok
    by_cases h7 : ib / 32 = 7
    · rw [if_neg h0, if_neg h1, if_neg h2, if_neg h3, if_neg h4, if_neg h5,
        if_neg h6, if_pos h7] at h
      rw [if_neg (fun hc => hc.elim h0 h1), if_neg (fun hc => hc.elim h2 h3),
        if_neg h4, if_neg h5, if_neg h6, if_pos h7]
      by_cases g20 : ib % 32 = 20
      · rw [if_pos g20] at h
        rw [if_pos (Or.inl g20)]
        rcases pure_ok_iff.mp h with h1
        injection h1 with h2' h3'
        subst h3'
        exact pure_ok_iff.mpr rfl
      by_cases g21 : ib % 32 = 21
      · rw [if_neg g20, if_pos g21] at h
        rw [if_pos (Or.inr (Or.inl g21))]
        rcases pure_ok_iff.mp h with h1
        injection h1 with h2' h3'
        subst h3'
        exact pure_ok_iff.mpr rfl
      by_cases g22 : ib % 32 = 22
      · rw [if_neg g20, if_neg g21, if_pos g22] at h
        rw [if_pos (Or.inr (Or.inr g22))]
        rcases pure_ok_iff.mp h with h1
        injection h1 with h2' h3'
        subst h3'
        exact pure_ok_iff.mpr rfl
      by_cases g23 : ib % 32 = 23
      · rw [if_neg g20, if_neg g21, if_neg g22, if_pos g23] at h
        rw [if_neg (fun hc => hc.elim g20 (fun hc2 => hc2.elim g21 g22)), if_pos g23, hau]
        by_cases hund : opts.allowUndefined = true
        · rw [if_pos hund] at h
          rw [if_pos hund]
          rcases pure_ok_iff.mp h with h1
          injection h1 with h2' h3'
          subst h3'
          exact pure_ok_iff.mpr rfl
        · rw [if_neg hund] at h
          exact absurd h throw_not_ok
      by_cases g24 : ib % 32 = 24
      · rw [if_neg g20, if_neg g21, if_neg g22, if_neg g23, if_pos g24] at h
        exact absurd h throw_not_ok
      by_cases g25 : ib % 32 = 25
      · rw [if_neg g20, if_neg g21, if_neg g22, if_neg g23, if_neg g24, if_pos g25] at h
        rw [if_neg (fun hc => hc.elim g20 (fun hc2 => hc2.elim g21 g22)), if_neg g23,
          if_neg g24, if_pos g25]
        by_cases hf : opts.minFloatSize ≤ 16
        · rw [if_pos hf] at h
          exact skip_after_read (hal.uintAligned 2) h b p
        · rw [if_neg hf] at h
          exact absurd h throw_not_ok
      by_cases g26 : ib % 32 = 26
      · rw [if_neg g20, if_neg g21, if_neg g22, if_neg g23, if_neg g24, if_neg g25,
          if_pos g26] at h
        rw [if_neg (fun hc => hc.elim g20 (fun hc2 => hc2.elim g21 g22)), if_neg g23,
          if_neg g24, if_neg g25, if_pos g26]
        by_cases hf : opts.minFloatSize ≤ 32
        · rw [if_pos hf] at h
          exact skip_after_read (hal.uintAligned 4) h b p
        · rw [if_neg hf] at h
          exact absurd h throw_not_ok
      by_cases g27 : ib % 32 = 27
      · rw [if_neg g20, if_neg g21, if_neg g22, if_neg g23, if_neg g24, if_neg g25,
          if_neg g26, if_pos g27] at h
        rw [if_neg (fun hc => hc.elim g20 (fun hc2 => hc2.elim g21 g22)), if_neg g23,
          if_neg g24, if_neg g25, if_neg g26, if_pos g27]
        exact skip_after_read (hal.uintAligned 8) h b p
      by_cases g31 : ib % 32 = 31
      · rw [if_neg g20, if_neg g21, if_neg g22, if_neg g23, if_neg g24, if_neg g25,
          if_neg g26, if_neg g27, if_pos g31] at h
        exact absurd h throw_not_ok
      rw [if_neg g20, if_neg g21, if_neg g22, if_neg g23, if_neg g24, if_neg g25,
        if_neg g26, if_neg g27, if_neg g31] at h
      exact absurd h throw_not_ok
    rw [if_neg h0, if_neg h1, if_neg h2, if_neg h3, if_neg h4, if_neg h5,
      if_neg h6, if_neg h7] at h
    exact absurd h throw_not_ok

/-- Equality of a pure step up to propositional equality of its value
and target state. -/
theorem pure_ok_of_eq {a b : α} {s t : σ} (h1 : b = a) (h2 : t = s) :
    (pure a : KM σ α) s = .ok (b, t) := by
  subst h1
  subst h2
  exact pure_ok_iff.mpr rfl

/-- Rebuilding a decoder state from its components when the environment
part is known. -/
theorem gst_eta {t : GSt κ} {b : Bool} {p : List Key} (hb : t.isKey = b)
    (hp : t.keyPath = p) : t = ⟨t.core, b, p⟩ := by
  subst hb
  subst hp
  rfl

/-- A payload hook that replies immediately without calling its thunk
reduces to the skip action followed by the replacement. -/
theorem runPayloadHook_replace_ok {payload : KM σ CBORValue} {sk : KM σ Unit}
    {r : CBORValue} {s s' : σ} (h : sk s = .ok ((), s')) :
    runPayloadHook (some ⟨0, fun _ => some r⟩) payload sk s = .ok (r, s') := by
  show (sk >>= fun _ => pure r : KM σ CBORValue) s = .ok (r, s')
  exact bind_ok_iff.mpr ⟨(), s', h, pure_ok_iff.mpr rfl⟩

/-- The key-hook analogue: the replacement key comes back as a string
value after the skip action. -/
theorem runKeyHook_replace_ok {payload : KM σ CBORValue} {sk : KM σ Unit}
    {kr : List Nat} {s s' : σ} (h : sk s = .ok ((), s')) :
    runKeyHook (some ⟨0, fun _ => some kr⟩) payload sk s = .ok (.str kr, s') := by
  show (sk >>= fun _ => pure (CBORValue.str kr) : KM σ CBORValue) s = .ok (.str kr, s')
  exact bind_ok_iff.mpr ⟨(), s', h, pure_ok_iff.mpr rfl⟩

/-- Hooks that replace every item without ever calling their decode
thunk: `onValue` always answers `r` and `onKey` always answers the key
string `kr`. -/
def replaceHooks (opts : DecodeOptions) (r : CBORValue) (kr : List Nat) : DecodeOptions :=
  ⟨opts.allowUndefined, opts.minFloatSize,
    some fun _ => ⟨0, fun _ => some kr⟩,
    some fun _ _ _ => ⟨0, fun _ => some r⟩⟩

/-- Claim C3: for every well-formed item (one a hook-free decode
accepts) and the hooks that return a replacement without having called
their decode thunk, the decoder returns the replacement and advances
the read cursor to exactly the byte position after the item — the
position the hook-free decode ends at — restoring the environment. -/
theorem C3_replacement_advances_cursor {P : Prims κ} (hal : SkipAligned P)
    (opts : DecodeOptions) (hnv : opts.onValue = none) (hnk : opts.onKey = none)
    (r : CBORValue) (kr : List Nat) (fuel : Nat) (s : GSt κ) (v : CBORValue) (s' : GSt κ)
    (h : decodeValueG P opts fuel s = .ok (v, s')) :
    ∃ v', decodeValueG P (replaceHooks opts r kr) fuel s =
        .ok (v', ⟨s'.core, s.isKey, s.keyPath⟩) ∧
      (v' = r ∨ v' = .str kr) ∧ (s.isKey = false → v' = r) := by
  cases fuel with
  | zero => exact absurd h throw_not_ok
  | succ fuel =>
    rw [decodeValueG] at h
    rcases bind_ok_iff.mp h with ⟨ib, s1, hib, h⟩
    rcases liftCore_ok_iff.mp hib with ⟨ib0, c1, hread, hr⟩
    injection hr with hr1 hr2
    subst hr1
    subst hr2
    rcases bind_ok_iff.mp h with ⟨env, s2, henv, h⟩
    obtain ⟨henv1, henv2⟩ := getEnv_ok henv
    subst henv2
    subst henv1
    dsimp only at h
    by_cases h0 : ib / 32 = 0
    · rw [if_pos h0] at h
      rcases bind_ok_iff.mp h with ⟨a, s3, harg, h⟩
      have m := coreop_getArgumentG P (ib % 32) _ a s3 harg
      have hs3 : s3 = (⟨s3.core, s.isKey, s.keyPath⟩ : GSt κ) := gst_eta m.1 m.2.1
      refine ⟨r, ?_, Or.inl rfl, fun _ => rfl⟩
      rw [decodeValueG]
      dsimp only [replaceHooks]
      refine bind_ok_iff.mpr ⟨ib, ⟨c1, s.isKey, s.keyPath⟩,
        liftCore_ok_iff.mpr ⟨ib, c1, hread, rfl⟩, ?_⟩
      dsimp only
      refine bind_ok_iff.mpr ⟨(s.isKey, s.keyPath), ⟨c1, s.isKey, s.keyPath⟩, rfl, ?_⟩
      dsimp only
      rw [if_pos h0]
      refine bind_ok_iff.mpr ⟨a, s3, harg, ?_⟩
      rcases a with ⟨av, au, asz⟩
      dsimp only at h ⊢
      cases au with
      | none =>
        dsimp only at h ⊢
        rcases pure_ok_iff.mp h with h1
        injection h1 with h2 h3
        subst h3
        exact pure_ok_of_eq rfl hs3.symm
      | some u =>
        dsimp only at h ⊢
        by_cases hm : maxSafeInteger < u
        · rw [if_pos hm] at h
          exact absurd h throw_not_ok
        · rw [if_neg hm] at h
          rw [if_neg hm]
          rcases pure_ok_iff.mp h with h1
          injection h1 with h2 h3
          subst h3
          exact pure_ok_of_eq rfl hs3.symm
    by_cases h1 : ib / 32 = 1
    · rw [if_neg h0, if_pos h1] at h
      rcases bind_ok_iff.mp h with ⟨a, s3, harg, h⟩
      have m := coreop_getArgumentG P (ib % 32) _ a s3 harg
      have hs3 : s3 = (⟨s3.core, s.isKey, s.keyPath⟩ : GSt κ) := gst_eta m.1 m.2.1
      refine ⟨r, ?_, Or.inl rfl, fun _ => rfl⟩
      rw [decodeValueG]
      dsimp only [replaceHooks]
      refine bind_ok_iff.mpr ⟨ib, ⟨c1, s.isKey, s.keyPath⟩,
        liftCore_ok_iff.mpr ⟨ib, c1, hread, rfl⟩, ?_⟩
      dsimp only
      refine bind_ok_iff.mpr ⟨(s.isKey, s.keyPath), ⟨c1, s.isKey, s.keyPath⟩, rfl, ?_⟩
      dsimp only
      rw [if_neg h0, if_pos h1]
      refine bind_ok_iff.mpr ⟨a, s3, harg, ?_⟩
      rcases a with ⟨av, au, asz⟩
      dsimp only at h ⊢
      cases au with
      | none =>
        dsimp only at h ⊢
        rcases pure_ok_iff.mp h with h1
        injection h1 with h2 h3
        subst h3
        exact pure_ok_of_eq rfl hs3.symm
      | some u =>
        dsimp only at h ⊢
        by_cases hm : -1 - (u : Int) < minSafeInteger
        · rw [if_pos hm] at h
          exact absurd h throw_not_ok
        · rw [if_neg hm] at h
          rw [if_neg hm]
          rcases pure_ok_iff.mp h with h1
          injection h1 with h2 h3
          subst h3
          exact pure_ok_of_eq rfl hs3.symm
    by_cases h2 : ib / 32 = 2
    · rw [if_neg h0, if_neg h1, if_pos h2] at h
      rcases bind_ok_iff.mp h with ⟨a, s3, harg, h⟩
      have m := coreop_getArgumentG P (ib % 32) _ a s3 harg
      have hs3 : s3 = (⟨s3.core, s.isKey, s.keyPath⟩ : GSt κ) := gst_eta m.1 m.2.1
      rw [hnv, Option.map_none'] at h
      have hsk := skip_after_read (hal.bytesAligned a.value)
        (runPayloadHook_none_ok.mp h) s.isKey s.keyPath
      rw [← hs3] at hsk
      refine ⟨r, ?_, Or.inl rfl, fun _ => rfl⟩
      rw [decodeValueG]
      dsimp only [replaceHooks]
      refine bind_ok_iff.mpr ⟨ib, ⟨c1, s.isKey, s.keyPath⟩,
        liftCore_ok_iff.mpr ⟨ib, c1, hread, rfl⟩, ?_⟩
      dsimp only
      refine bind_ok_iff.mpr ⟨(s.isKey, s.keyPath), ⟨c1, s.isKey, s.keyPath⟩, rfl, ?_⟩
      dsimp only
      rw [if_neg h0, if_neg h1, if_pos h2]
      refine bind_ok_iff.mpr ⟨a, s3, harg, ?_⟩
      exact runPayloadHook_replace_ok hsk
    by_cases h3 : ib / 32 = 3
    · rw [if_neg h0, if_neg h1, if_neg h2, if_pos h3] at h
      rcases bind_ok_iff.mp h with ⟨a, s3, harg, h⟩
      have m := coreop_getArgumentG P (ib % 32) _ a s3 harg
      have hs3 : s3 = (⟨s3.core, s.isKey, s.keyPath⟩ : GSt κ) := gst_eta m.1 m.2.1
      by_cases hik : s.isKey = true
      · rw [if_pos hik, hnk, Option.map_none'] at h
        have hsk := skip_after_read (hal.strAligned a.value)
          (runKeyHook_none_ok.mp h) s.isKey s.keyPath
        rw [← hs3] at hsk
        refine ⟨.str kr, ?_, Or.inr rfl, fun hf => Bool.noConfusion (hik.symm.trans hf)⟩
        rw [decodeValueG]
        dsimp only [replaceHooks]
        refine bind_ok_iff.mpr ⟨ib, ⟨c1, s.isKey, s.keyPath⟩,
          liftCore_ok_iff.mpr ⟨ib, c1, hread, rfl⟩, ?_⟩
        dsimp only
        refine bind_ok_iff.mpr ⟨(s.isKey, s.keyPath), ⟨c1, s.isKey, s.keyPath⟩, rfl, ?_⟩
        dsimp only
        rw [if_neg h0, if_neg h1, if_neg h2, if_pos h3]
        refine bind_ok_iff.mpr ⟨a, s3, harg, ?_⟩
        dsimp only
        rw [if_pos hik]
        exact runKeyHook_replace_ok hsk
      · rw [if_neg hik, hnv, Option.map_none'] at h
        have hsk := skip_after_read (hal.strAligned a.value)
          (runPayloadHook_none_ok.mp h) s.isKey s.keyPath
        rw [← hs3] at hsk
        refine ⟨r, ?_, Or.inl rfl, fun _ => rfl⟩
        rw [decodeValueG]
        dsimp only [replaceHooks]
        refine bind_ok_iff.mpr ⟨ib, ⟨c1, s.isKey, s.keyPath⟩,
          liftCore_ok_iff.mpr ⟨ib, c1, hread, rfl⟩, ?_⟩
        dsimp only
        refine bind_ok_iff.mpr ⟨(s.isKey, s.keyPath), ⟨c1, s.isKey, s.keyPath⟩, rfl, ?_⟩
        dsimp only
        rw [if_neg h0, if_neg h1, if_neg h2, if_pos h3]
        refine bind_ok_iff.mpr ⟨a, s3, harg, ?_⟩
        dsimp only
        rw [if_neg hik]
        exact runPayloadHook_replace_ok hsk
    by_cases h4 : ib / 32 = 4
    · rw [if_neg h0, if_neg h1, if_neg h2, if_neg h3, if_pos h4] at h
      rcases bind_ok_iff.mp h with ⟨a, s3, harg, h⟩
      have m := coreop_getArgumentG P (ib % 32) _ a s3 harg
      have hs3 : s3 = (⟨s3.core, s.isKey, s.keyPath⟩ : GSt κ) := gst_eta m.1 m.2.1
      rw [hnv, Option.map_none'] at h
      have hp := runPayloadHook_none_ok.mp h
      rcases bind_ok_iff.mp hp with ⟨xs, s4, hloop, hpure⟩
      rcases pure_ok_iff.mp hpure with h1
      injection h1 with h2' h3'
      subst h3'
      have hsk := arr_skip_loop
        (skip_of_decode hal opts (replaceHooks opts r kr) hnv hnk rfl fuel)
        a.value 0 [] xs s3 _ hloop s.isKey s.keyPath
      rw [← hs3] at hsk
      refine ⟨r, ?_, Or.inl rfl, fun _ => rfl⟩
      rw [decodeValueG]
      dsimp only [replaceHooks]
      refine bind_ok_iff.mpr ⟨ib, ⟨c1, s.isKey, s.keyPath⟩,
        liftCore_ok_iff.mpr ⟨ib, c1, hread, rfl⟩, ?_⟩
      dsimp only
      refine bind_ok_iff.mpr ⟨(s.isKey, s.keyPath), ⟨c1, s.isKey, s.keyPath⟩, rfl, ?_⟩
      dsimp only
      rw [if_neg h0, if_neg h1, if_neg h2, if_neg h3, if_pos h4]
      refine bind_ok_iff.mpr ⟨a, s3, harg, ?_⟩
      exact runPayloadHook_replace_ok hsk
    by_cases h5 : ib / 32 = 5
    · rw [if_neg h0, if_neg h1, if_neg h2, if_neg h3, if_neg h4, if_pos h5] at h
      rcases bind_ok_iff.mp h with ⟨a, s3, harg, h⟩
      have m := coreop_getArgumentG P (ib % 32) _ a s3 harg
      have hs3 : s3 = (⟨s3.core, s.isKey, s.keyPath⟩ : GSt κ) := gst_eta m.1 m.2.1
      rw [hnv, Option.map_none'] at h
      have hp := runPayloadHook_none_ok.mp h
      rcases bind_ok_iff.mp hp with ⟨es, s4, hloop, hpure⟩
      rcases pure_ok_iff.mp hpure with h1
      injection h1 with h2' h3'
      subst h3'
      have hsk := map_skip_loop
        (skip_of_decode hal opts (replaceHooks opts r kr) hnv hnk rfl fuel)
        P.dupCheck a.value [] es s3 _ hloop s.isKey s.keyPath
      rw [← hs3] at hsk
      refine ⟨r, ?_, Or.inl rfl, fun _ => rfl⟩
      rw [decodeValueG]
      dsimp only [replaceHooks]
      refine bind_ok_iff.mpr ⟨ib, ⟨c1, s.isKey, s.keyPath⟩,
        liftCore_ok_iff.mpr ⟨ib, c1, hread, rfl⟩, ?_⟩
      dsimp only
      refine bind_ok_iff.mpr ⟨(s.isKey, s.keyPath), ⟨c1, s.isKey, s.keyPath⟩, rfl, ?_⟩
      dsimp only
      rw [if_neg h0, if_neg h1, if_neg h2, if_neg h3, if_neg h4, if_pos h5]
      refine bind_ok_iff.mpr ⟨a, s3, harg, ?_⟩
      exact runPayloadHook_replace_ok hsk
    by_cases h6 : ib / 32 = 6
    · rw [if_neg h0, if_neg h1, if_neg h2, if_neg h3, if_neg h4, if_neg h5, if_pos h6] at h
      exact absurd h throw_not_ok
    by_cases h7 : ib / 32 = 7
    · rw [if_neg h0, if_neg h1, if_neg h2, if_neg h3, if_neg h4, if_neg h5,
        if_neg h6, if_pos h7] at h
      refine ⟨r, ?_, Or.inl rfl, fun _ => rfl⟩
      rw [decodeValueG]
      dsimp only [replaceHooks]
      refine bind_ok_iff.mpr ⟨ib, ⟨c1, s.isKey, s.keyPath⟩,
        liftCore_ok_iff.mpr ⟨ib, c1, hread, rfl⟩, ?_⟩
      dsimp only
      refine bind_ok_iff.mpr ⟨(s.isKey, s.keyPath), ⟨c1, s.isKey, s.keyPath⟩, rfl, ?_⟩
      dsimp only
      rw [if_neg h0, if_neg h1, if_neg h2, if_neg h3, if_neg h4, if_neg h5,
        if_neg h6, if_pos h7]
      by_cases g20 : ib % 32 = 20
      · rw [if_pos g20] at h
        rw [if_pos g20]
        rcases pure_ok_iff.mp h with h1
        injection h1 with h2' h3'
        subst h3'
        exact pure_ok_iff.mpr rfl
      by_cases g21 : ib % 32 = 21
      · rw [if_neg g20, if_pos g21] at h
        rw [if_neg g20, if_pos g21]
        rcases pure_ok_iff.mp h with h1
        injection h1 with h2' h3'
        subst h3'
        exact pure_ok_iff.mpr rfl
      by_cases g22 : ib % 32 = 22
      · rw [if_neg g20, if_neg g21, if_pos g22] at h
        rw [if_neg g20, if_neg g21, if_pos g22]
        rcases pure_ok_iff.mp h with h1
        injection h1 with h2' h3'
        subst h3'
        exact pure_ok_iff.mpr rfl
      by_cases g23 : ib % 32 = 23
      · rw [if_neg g20, if_neg g21, if_neg g22, if_pos g23] at h
        rw [if_neg g20, if_neg g21, if_neg g22, if_pos g23]
        by_cases hund : opts.allowUndefined = true
        · rw [if_pos hund] at h
          rw [if_pos hund]
          rcases pure_ok_iff.mp h with h1
          injection h1 with h2' h3'
          subst h3'
          exact pure_ok_iff.mpr rfl
        · rw [if_neg hund] at h
          exact absurd h throw_not_ok
      by_cases g24 : ib % 32 = 24
      · rw [if_neg g20, if_neg g21, if_neg g22, if_neg g23, if_pos g24] at h
        exact absurd h throw_not_ok
      by_cases g25 : ib % 32 = 25
      · rw [if_neg g20, if_neg g21, if_neg g22, if_neg g23, if_neg g24, if_pos g25] at h
        rw [if_neg g20, if_neg g21, if_neg g22, if_neg g23, if_neg g24, if_pos g25]
        by_cases hf : opts.minFloatSize ≤ 16
        · rw [if_pos hf] at h
          rw [if_pos hf]
          rcases bind_ok_iff.mp h with ⟨bits, sb, hb2, hp2⟩
          rcases liftCore_ok_iff.mp hb2 with ⟨bits2, c2, hread2, hr2⟩
          injection hr2 with hx1 hx2
          subst hx1
          subst hx2
          rcases pure_ok_iff.mp hp2 with h1
          injection h1 with h2' h3'
          subst h3'
          refine bind_ok_iff.mpr ⟨bits, ⟨c2, s.isKey, s.keyPath⟩,
            liftCore_ok_iff.mpr ⟨bits, c2, hread2, rfl⟩, ?_⟩
          exact pure_ok_iff.mpr rfl
        · rw [if_neg hf] at h
          exact absurd h throw_not_ok
      by_cases g26 : ib % 32 = 26
      · rw [if_neg g20, if_neg g21, if_neg g22, if_neg g23, if_neg g24, if_neg g25,
          if_pos g26] at h
        rw [if_neg g20, if_neg g21, if_neg g22, if_neg g23, if_neg g24, if_neg g25,
          if_pos g26]
        by_cases hf : opts.minFloatSize ≤ 32
        · rw [if_pos hf] at h
          rw [if_pos hf]
          rcases bind_ok_iff.mp h with ⟨bits, sb, hb2, hp2⟩
          rcases liftCore_ok_iff.mp hb2 with ⟨bits2, c2, hread2, hr2⟩
          injection hr2 with hx1 hx2
          subst hx1
          subst hx2
          rcases pure_ok_iff.mp hp2 with h1
          injection h1 with h2' h3'
          subst h3'
          refine bind_ok_iff.mpr ⟨bits, ⟨c2, s.isKey, s.keyPath⟩,
            liftCore_ok_iff.mpr ⟨bits, c2, hread2, rfl⟩, ?_⟩
          exact pure_ok_iff.mpr rfl
        · rw [if_neg hf] at h
          exact absurd h throw_not_ok
      by_cases g27 : ib % 32 = 27
      · rw [if_neg g20, if_neg g21, if_neg g22, if_neg g23, if_neg g24, if_neg g25,
          if_neg g26, if_pos g27] at h
        rw [if_neg g20, if_neg g21, if_neg g22, if_neg g23, if_neg g24, if_neg g25,
          if_neg g26, if_pos g27]
        rcases bind_ok_iff.mp h with ⟨bits, sb, hb2, hp2⟩
        rcases liftCore_ok_iff.mp hb2 with ⟨bits2, c2, hread2, hr2⟩
        injection hr2 with hx1 hx2
        subst hx1
        subst hx2
        rcases pure_ok_iff.mp hp2 with h1
        injection h1 with h2' h3'
        subst h3'
        refine bind_ok_iff.mpr ⟨bits, ⟨c2, s.isKey, s.keyPath⟩,
          liftCore_ok_iff.mpr ⟨bits, c2, hread2, rfl⟩, ?_⟩
        exact pure_ok_iff.mpr rfl
      by_cases g31 : ib % 32 = 31
      · rw [if_neg g20, if_neg g21, if_neg g22, if_neg g23, if_neg g24, if_neg g25,
          if_neg g26, if_neg g27, if_pos g31] at h
        exact absurd h throw_not_ok
      rw [if_neg g20, if_neg g21, if_neg g22, if_neg g23, if_neg g24, if_neg g25,
        if_neg g26, if_neg g27, if_neg g31] at h
      exact absurd h throw_not_ok
    rw [if_neg h0, if_neg h1, if_neg h2, if_neg h3, if_neg h4, if_neg h5,
      if_neg h6, if_neg h7] at h
    exact absurd h throw_not_ok

/-- Claim C3, witness: over the in-memory decoder on the byte-string
item `41 00`, replacement hooks that never call their thunk return the
replacement `7` with the cursor at byte 2 — exactly where the hook-free
decode of the item ends. -/
theorem C3_witness :
    ∃ v', decodeValueG (memPrims [0x41, 0x00]) (replaceHooks defaultOpts (.int 7) [107]) 3
        (initGSt 0) = .ok (v', ⟨2, false, []⟩) ∧
      (v' = .int 7 ∨ v' = .str [107]) ∧ (false = false → v' = .int 7) :=
  C3_replacement_advances_cursor (skipAligned_mem [0x41, 0x00]) defaultOpts rfl rfl
    (.int 7) [107] 3 (initGSt 0) (.bytes [0]) ⟨2, false, []⟩ rfl

/-! ## Claim C6 — the `onFree` discipline of the streaming decoder -/

/-- Dropping one chunk walk of `advance` frees exactly the leading
fully-consumed chunks: the chunk count it reports never covers more
bytes than the previously consumed head offset plus the bytes consumed
by this call. -/
theorem advGo_take_le (chunks : List (List Nat)) :
    ∀ (off n col dc fo), advGo chunks off n = some (col, dc, fo) →
      sumLen (List.take dc chunks) ≤ off + n := by
  induction chunks with
  | nil =>
    intro off n col dc fo h
    cases n with
    | zero =>
      rw [advGo] at h
      injection h with h1
      injection h1 with h2 h3
      injection h3 with h4 h5
      subst h4
      simp [sumLen]
    | succ m =>
      rw [advGo] at h
      exact Option.noConfusion h
  | cons c rest ih =>
    intro off n col dc fo h
    cases n with
    | zero =>
      rw [advGo] at h
      injection h with h1
      injection h1 with h2 h3
      injection h3 with h4 h5
      subst h4
      simp [sumLen]
    | succ need =>
      rw [advGo] at h
      by_cases hc : c.length - off ≤ need + 1
      · rw [if_pos hc] at h
        cases hrec : advGo rest 0 (need + 1 - (c.length - off)) with
        | none =>
          rw [hrec] at h
          exact Option.noConfusion h
        | some t =>
          obtain ⟨col2, dc2, fo2⟩ := t
          rw [hrec] at h
          injection h with h1
          injection h1 with h2 h3
          injection h3 with h4 h5
          subst h4
          have hrest := ih 0 (need + 1 - (c.length - off)) col2 dc2 fo2 hrec
          simp only [List.take_succ_cons, sumLen, List.map_cons, List.sum_cons] at *
          omega
      · rw [if_neg hc] at h
        injection h with h1
        injection h1 with h2 h3
        injection h3 with h4 h5
        subst h4
        simp [sumLen]

/-- What one successful `advance(n)` does to the bookkeeping: the freed
log grows by exactly the leading `dc` held chunks (in order), those
chunks leave the rope, the received log is untouched, and every freed
chunk is fully consumed (their total size fits in the already-consumed
head offset plus the `n` bytes this call consumes). -/
theorem chAdvance_frees (n : Nat) (st : ChCore) (bs : List Nat) (st' : ChCore)
    (h : chAdvance n st = .ok (bs, st')) :
    ∃ dc, st'.freed = st.freed ++ List.take dc st.chunks ∧
      st'.chunks = List.drop dc st.chunks ∧
      st'.received = st.received ∧
      sumLen (List.take dc st.chunks) ≤ st.offset + n := by
  unfold chAdvance at h
  by_cases hb : st.byteLength < n
  · rw [if_pos hb] at h
    exact Except.noConfusion h
  · rw [if_neg hb] at h
    cases hadv : advGo st.chunks st.offset n with
    | none =>
      rw [hadv] at h
      exact Except.noConfusion h
    | some t =>
      obtain ⟨col, dc, fo⟩ := t
      rw [hadv] at h
      injection h with h1
      injection h1 with hbs hst
      subst hst
      exact ⟨dc, rfl, rfl, rfl, advGo_take_le st.chunks st.offset n col dc fo hadv⟩

/-- A chunk log sits inside a received log when the latter is the former
with extra empty chunks inserted (the pulls `next()` received but never
pushed). -/
inductive InsE : List (List Nat) → List (List Nat) → Prop
  | nil : InsE [] []
  | same (c : List Nat) {ks rs : List (List Nat)} : InsE ks rs → InsE (c :: ks) (c :: rs)
  | emp {ks rs : List (List Nat)} : InsE ks rs → InsE ks ([] :: rs)

theorem insE_append_same (c : List Nat) {ks rs : List (List Nat)} (h : InsE ks rs) :
    InsE (ks ++ [c]) (rs ++ [c]) := by
  induction h with
  | nil => exact .same c .nil
  | same d h ih => exact .same d ih
  | emp h ih => exact .emp ih

theorem insE_append_emp {ks rs : List (List Nat)} (h : InsE ks rs) :
    InsE ks (rs ++ [[]]) := by
  induction h with
  | nil => exact .emp .nil
  | same d h ih => exact .same d ih
  | emp h ih => exact .emp ih

/-- The chunk-accounting invariant of a streaming-decoder state: the
freed log followed by the held rope is the received log minus inserted
empty chunks.  It pins down order (freed chunks are a prefix, in receive
order) and exactly-once (a freed chunk has left the rope). -/
def ChunkLog (st : ChCore) : Prop := InsE (st.freed ++ st.chunks) st.received

theorem allocateGo_chunkLog (n : Nat) :
    ∀ (src : List (List Nat)) (off bl : Nat) (chunks freed recv : List (List Nat))
      (st' : ChCore), allocateGo n src off bl chunks freed recv = .ok st' →
      InsE (freed ++ chunks) recv → InsE (st'.freed ++ st'.chunks) st'.received := by
  intro src
  induction src with
  | nil =>
    intro off bl chunks freed recv st' h hi
    rw [allocateGo] at h
    by_cases hb : n ≤ bl
    · rw [if_pos hb] at h
      cases h
      exact hi
    · rw [if_neg hb] at h
      exact Except.noConfusion h
  | cons c rest ih =>
    intro off bl chunks freed recv st' h hi
    rw [allocateGo] at h
    by_cases hb : n ≤ bl
    · rw [if_pos hb] at h
      cases h
      exact hi
    · rw [if_neg hb] at h
      refine ih off (bl + c.length) (chunks ++ [c]) freed (recv ++ [c]) st' h ?_
      rw [← List.append_assoc]
      exact insE_append_same c hi

theorem chAllocate_chunkLog (n : Nat) {st : ChCore} {r : Unit} {st' : ChCore}
    (h : chAllocate n st = .ok (r, st')) (hi : ChunkLog st) : ChunkLog st' := by
  unfold chAllocate at h
  cases halloc : allocateGo n st.source st.offset st.byteLength st.chunks st.freed
      st.received with
  | error e =>
    rw [halloc] at h
    exact Except.noConfusion h
  | ok st2 =>
    rw [halloc] at h
    cases h
    exact allocateGo_chunkLog n st.source st.offset st.byteLength st.chunks st.freed
      st.received _ halloc hi

theorem chAdvance_chunkLog (n : Nat) {st : ChCore} {bs : List Nat} {st' : ChCore}
    (h : chAdvance n st = .ok (bs, st')) (hi : ChunkLog st) : ChunkLog st' := by
  obtain ⟨dc, hf, hc, hr, -⟩ := chAdvance_frees n st bs st' h
  unfold ChunkLog at hi ⊢
  rw [hf, hc, hr, List.append_assoc, List.take_append_drop]
  exact hi

/-- Preservation of a core-level invariant by a decoder action. -/
def CoreInv (Inv : κ → Prop) (m : GM κ α) : Prop :=
  ∀ s r s', m s = .ok (r, s') → Inv s.core → Inv s'.core

/-- Preservation of a core invariant by each primitive of a decoder
core. -/
structure PrimsInv (P : Prims κ) (Inv : κ → Prop) : Prop where
  uint : ∀ k c r c', P.readUint k c = .ok (r, c') → Inv c → Inv c'
  bytes : ∀ n c r c', P.readBytes n c = .ok (r, c') → Inv c → Inv c'
  str : ∀ n c r c', P.readStr n c = .ok (r, c') → Inv c → Inv c'
  skip : ∀ n c r c', P.skipBytes n c = .ok (r, c') → Inv c → Inv c'

theorem cinv_bind {Inv : κ → Prop} {x : GM κ α} {f : α → GM κ β}
    (hx : CoreInv Inv x) (hf : ∀ a, CoreInv Inv (f a)) : CoreInv Inv (x >>= f) := by
  intro s r s' h hs
  rcases bind_ok_iff.mp h with ⟨a, s1, hxa, hfa⟩
  exact hf a s1 r s' hfa (hx s a s1 hxa hs)

theorem cinv_pure {Inv : κ → Prop} (a : α) : CoreInv Inv (pure a : GM κ α) := by
  intro s r s' h hs
  cases pure_ok_iff.mp h
  exact hs

theorem cinv_throw {Inv : κ → Prop} (e : DErr) : CoreInv Inv (KM.throw e : GM κ α) := by
  intro s r s' h
  exact absurd h throw_not_ok

theorem cinv_ite {Inv : κ → Prop} {c : Prop} [Decidable c] {x y : GM κ α}
    (hx : CoreInv Inv x) (hy : CoreInv Inv y) : CoreInv Inv (if c then x else y) := by
  by_cases hc : c
  · rw [if_pos hc]; exact hx
  · rw [if_neg hc]; exact hy

theorem cinv_liftCore {Inv : κ → Prop} {act : KM κ α}
    (hact : ∀ c r c', act c = .ok (r, c') → Inv c → Inv c') :
    CoreInv Inv (liftCore act) := by
  intro s r s' h hs
  rcases liftCore_ok_iff.mp h with ⟨a, c', ha, hr⟩
  injection hr with h1 h2
  subst h2
  exact hact _ _ _ ha hs

theorem cinv_pushKey {Inv : κ → Prop} (k : Key) : CoreInv Inv (pushKeyG k : GM κ Unit) := by
  intro s r s' h hs
  unfold pushKeyG at h
  cases h
  exact hs

theorem cinv_popKey {Inv : κ → Prop} : CoreInv Inv (popKeyG : GM κ Unit) := by
  intro s r s' h hs
  unfold popKeyG at h
  cases h
  exact hs

theorem cinv_setIsKey {Inv : κ → Prop} (b : Bool) : CoreInv Inv (setIsKey b : GM κ Unit) := by
  intro s r s' h hs
  unfold setIsKey at h
  cases h
  exact hs

theorem cinv_getEnv {Inv : κ → Prop} : CoreInv Inv (getEnv : GM κ (Bool × List Key)) := by
  intro s r s' h hs
  unfold getEnv at h
  cases h
  exact hs

theorem cinv_getArgumentG {Inv : κ → Prop} {P : Prims κ} (hP : PrimsInv P Inv) (ai : Nat) :
    CoreInv Inv (getArgumentG P ai) := by
  unfold getArgumentG
  refine cinv_ite (cinv_pure _) (cinv_ite ?_ (cinv_ite ?_ (cinv_ite ?_ (cinv_ite ?_
    (cinv_ite (cinv_throw _) (cinv_throw _)))))) <;>
    exact cinv_bind (cinv_liftCore (hP.uint _)) fun _ => cinv_pure _

theorem cinv_repeatM {Inv : κ → Prop} {act : GM κ Unit} (hact : CoreInv Inv act) (n : Nat) :
    CoreInv Inv (repeatM act n) := by
  induction n with
  | zero => exact cinv_pure _
  | succ n ih => exact cinv_bind hact fun _ => ih

theorem cinv_memoStep {Inv : κ → Prop} {payload : GM κ CBORValue}
    (hp : CoreInv Inv payload) (memo : Option CBORValue) :
    CoreInv Inv (memoStep payload memo) := by
  cases memo with
  | none => exact cinv_bind hp fun v => cinv_pure _
  | some v => exact cinv_pure _

theorem cinv_iterThunk {Inv : κ → Prop}
    {cb : Option CBORValue → GM κ (CBORValue × Option CBORValue)}
    (hcb : ∀ memo, CoreInv Inv (cb memo)) (k : Nat) (memo : Option CBORValue) :
    CoreInv Inv (iterThunk cb k memo) := by
  induction k generalizing memo with
  | zero => exact cinv_pure _
  | succ k ih =>
    exact cinv_bind (hcb memo) fun r => cinv_bind (ih r.2) fun r2 => cinv_pure _

theorem cinv_runPayloadHook {Inv : κ → Prop} {scr? : Option Script}
    {payload : GM κ CBORValue} {skip : GM κ Unit}
    (hp : CoreInv Inv payload) (hs : CoreInv Inv skip) :
    CoreInv Inv (runPayloadHook scr? payload skip) := by
  cases scr? with
  | none => exact cinv_bind (cinv_memoStep hp none) fun r => cinv_pure _
  | some scr =>
    refine cinv_bind (cinv_iterThunk (fun m => cinv_memoStep hp m) _ none)
      fun r => ?_
    cases scr.reply r.1 with
    | some val =>
      cases r.2 with
      | none => exact cinv_bind hs fun _ => cinv_pure _
      | some _ => exact cinv_pure _
    | none => exact cinv_bind (cinv_memoStep hp r.2) fun r' => cinv_pure _

theorem cinv_runKeyHook {Inv : κ → Prop} {scr? : Option KeyScript}
    {payload : GM κ CBORValue} {skip : GM κ Unit}
    (hp : CoreInv Inv payload) (hs : CoreInv Inv skip) :
    CoreInv Inv (runKeyHook scr? payload skip) := by
  cases scr? with
  | none => exact cinv_bind (cinv_memoStep hp none) fun r => cinv_pure _
  | some scr =>
    refine cinv_bind (cinv_iterThunk (fun m => cinv_memoStep hp m) _ none)
      fun r => ?_
    cases scr.reply r.1 with
    | some val =>
      cases r.2 with
      | none => exact cinv_bind hs fun _ => cinv_pure _
      | some _ => exact cinv_pure _
    | none => exact cinv_bind (cinv_memoStep hp r.2) fun r' => cinv_pure _

theorem cinv_arrLoop {Inv : κ → Prop} {dec : GM κ CBORValue} (hdec : CoreInv Inv dec) :
    ∀ (n i : Nat) (acc : List CBORValue), CoreInv Inv (arrLoop dec i n acc) := by
  intro n
  induction n with
  | zero => intro i acc; exact cinv_pure _
  | succ n ih =>
    intro i acc s r s' h hs
    rw [arrLoop] at h
    rcases bind_ok_iff.mp h with ⟨_, s1, h1, h'⟩
    rcases bind_ok_iff.mp h' with ⟨v, s2, h2, h''⟩
    rcases bind_ok_iff.mp h'' with ⟨_, s3, h3, h4⟩
    have i1 : Inv s1.core := cinv_pushKey (Key.idx i) _ _ _ h1 hs
    have i2 : Inv s2.core := hdec _ _ _ h2 i1
    have i3 : Inv s3.core := cinv_popKey _ _ _ h3 i2
    exact ih (i + 1) (acc ++ [v]) _ _ _ h4 i3

theorem cinv_mapLoop {Inv : κ → Prop} {dec : GM κ CBORValue} (hdec : CoreInv Inv dec)
    (dup : Bool) : ∀ (n : Nat) (acc : List (List Nat × CBORValue)),
      CoreInv Inv (mapLoop dec dup n acc) := by
  intro n
  induction n with
  | zero => intro acc; exact cinv_pure _
  | succ n ih =>
    intro acc s r s' h hs
    rw [mapLoop] at h
    rcases bind_ok_iff.mp h with ⟨_, s1, h1, h'⟩
    rcases bind_ok_iff.mp h' with ⟨key, s2, h2, h''⟩
    rcases bind_ok_iff.mp h'' with ⟨_, s3, h3, h4⟩
    have i1 : Inv s1.core := cinv_setIsKey true _ _ _ h1 hs
    have i2 : Inv s2.core := hdec _ _ _ h2 i1
    have i3 : Inv s3.core := cinv_setIsKey false _ _ _ h3 i2
    revert h4
    cases key
    case str ks =>
      intro h4
      dsimp only at h4
      by_cases hc : (dup = true ∧ ks ∈ acc.map Prod.fst)
      · rw [if_pos hc] at h4
        rcases bind_ok_iff.mp h4 with ⟨_, s4, hthrow, -⟩
        exact absurd hthrow throw_not_ok
      · rw [if_neg hc] at h4
        rcases bind_ok_iff.mp h4 with ⟨_, s4, hp, h5⟩
        have i4 : Inv s4.core := by
          cases pure_ok_iff.mp hp
          exact i3
        rcases bind_ok_iff.mp h5 with ⟨_, s5, hpush, h6⟩
        rcases bind_ok_iff.mp h6 with ⟨v, s6, hdecv, h7⟩
        rcases bind_ok_iff.mp h7 with ⟨_, s7, hpop, h8⟩
        have i5 : Inv s5.core := cinv_pushKey (Key.str ks) _ _ _ hpush i4
        have i6 : Inv s6.core := hdec _ _ _ hdecv i5
        have i7 : Inv s7.core := cinv_popKey _ _ _ hpop i6
        exact ih _ _ _ _ h8 i7
    all_goals exact fun h4 => absurd h4 throw_not_ok

theorem cinv_skipValueG {Inv : κ → Prop} {P : Prims κ} (hP : PrimsInv P Inv)
    (opts : DecodeOptions) : ∀ fuel, CoreInv Inv (skipValueG P opts fuel) := by
  intro fuel
  induction fuel with
  | zero => exact cinv_throw _
  | succ fuel ih =>
    rw [skipValueG]
    refine cinv_bind (cinv_liftCore (hP.uint 1)) fun ib => ?_
    refine cinv_ite (cinv_bind (cinv_getArgumentG hP _) fun _ => cinv_pure _) ?_
    refine cinv_ite (cinv_bind (cinv_getArgumentG hP _) fun a =>
      cinv_liftCore (hP.skip _)) ?_
    refine cinv_ite (cinv_bind (cinv_getArgumentG hP _) fun a => cinv_repeatM ih _) ?_
    refine cinv_ite (cinv_bind (cinv_getArgumentG hP _) fun a => cinv_repeatM ih _) ?_
    refine cinv_ite (cinv_throw _) ?_
    refine cinv_ite ?_ (cinv_pure _)
    refine cinv_ite (cinv_pure _) ?_
    refine cinv_ite (cinv_ite (cinv_pure _) (cinv_throw _)) ?_
    refine cinv_ite (cinv_throw _) ?_
    refine cinv_ite (cinv_liftCore (hP.skip _)) ?_
    refine cinv_ite (cinv_liftCore (hP.skip _)) ?_
    refine cinv_ite (cinv_liftCore (hP.skip _)) ?_
    exact cinv_ite (cinv_throw _) (cinv_throw _)

theorem cinv_decodeValueG {Inv : κ → Prop} {P : Prims κ} (hP : PrimsInv P Inv)
    (opts : DecodeOptions) : ∀ fuel, CoreInv Inv (decodeValueG P opts fuel) := by
  intro fuel
  induction fuel with
  | zero => exact cinv_throw _
  | succ fuel ih =>
    rw [decodeValueG]
    refine cinv_bind (cinv_liftCore (hP.uint 1)) fun ib => ?_
    refine cinv_bind cinv_getEnv fun env => ?_
    refine cinv_ite (cinv_bind (cinv_getArgumentG hP _) fun a => ?_) ?_
    · cases a.uint64 with
      | some u => exact cinv_ite (cinv_throw _) (cinv_pure _)
      | none => exact cinv_pure _
    refine cinv_ite (cinv_bind (cinv_getArgumentG hP _) fun a => ?_) ?_
    · cases a.uint64 with
      | some u => exact cinv_ite (cinv_throw _) (cinv_pure _)
      | none => exact cinv_pure _
    refine cinv_ite (cinv_bind (cinv_getArgumentG hP _) fun a =>
      cinv_runPayloadHook (cinv_bind (cinv_liftCore (hP.bytes _)) fun _ => cinv_pure _)
        (cinv_liftCore (hP.skip _))) ?_
    refine cinv_ite (cinv_bind (cinv_getArgumentG hP _) fun a =>
      cinv_ite
        (cinv_runKeyHook (cinv_bind (cinv_liftCore (hP.str _)) fun _ => cinv_pure _)
          (cinv_liftCore (hP.skip _)))
        (cinv_runPayloadHook (cinv_bind (cinv_liftCore (hP.str _)) fun _ => cinv_pure _)
          (cinv_liftCore (hP.skip _)))) ?_
    refine cinv_ite (cinv_bind (cinv_getArgumentG hP _) fun a =>
      cinv_runPayloadHook (cinv_bind (cinv_arrLoop ih _ _ _) fun _ => cinv_pure _)
        (cinv_repeatM (cinv_skipValueG hP opts fuel) _)) ?_
    refine cinv_ite (cinv_bind (cinv_getArgumentG hP _) fun a =>
      cinv_runPayloadHook (cinv_bind (cinv_mapLoop ih _ _ _) fun _ => cinv_pure _)
        (cinv_repeatM (cinv_skipValueG hP opts fuel) _)) ?_
    refine cinv_ite (cinv_throw _) ?_
    refine cinv_ite ?_ (cinv_throw _)
    refine cinv_ite (cinv_pure _) ?_
    refine cinv_ite (cinv_pure _) ?_
    refine cinv_ite (cinv_pure _) ?_
    refine cinv_ite (cinv_ite (cinv_pure _) (cinv_throw _)) ?_
    refine cinv_ite (cinv_throw _) ?_
    refine cinv_ite (cinv_ite (cinv_bind (cinv_liftCore (hP.uint _)) fun _ => cinv_pure _)
      (cinv_throw _)) ?_
    refine cinv_ite (cinv_ite (cinv_bind (cinv_liftCore (hP.uint _)) fun _ => cinv_pure _)
      (cinv_throw _)) ?_
    refine cinv_ite (cinv_bind (cinv_liftCore (hP.uint _)) fun _ => cinv_pure _) ?_
    exact cinv_ite (cinv_throw _) (cinv_throw _)

theorem chunkPrimsInv : PrimsInv chunkPrims ChunkLog := by
  constructor
  · intro k c r c' h hi
    rcases bind_ok_iff.mp h with ⟨u, c1, ha, h2⟩
    rcases bind_ok_iff.mp h2 with ⟨bs, c2, hadv, hp⟩
    rcases pure_ok_iff.mp hp with h3
    injection h3 with h4 h5
    subst h5
    exact chAdvance_chunkLog k hadv (chAllocate_chunkLog k ha hi)
  · intro n c r c' h hi
    rcases bind_ok_iff.mp h with ⟨u, c1, ha, hadv⟩
    exact chAdvance_chunkLog n hadv (chAllocate_chunkLog n ha hi)
  · intro n c r c' h hi
    rcases bind_ok_iff.mp h with ⟨u, c1, ha, hadv⟩
    exact chAdvance_chunkLog n hadv (chAllocate_chunkLog n ha hi)
  · intro n c r c' h hi
    rcases bind_ok_iff.mp h with ⟨u, c1, ha, h2⟩
    rcases bind_ok_iff.mp h2 with ⟨bs, c2, hadv, hp⟩
    rcases pure_ok_iff.mp hp with h3
    injection h3 with h4 h5
    subst h5
    exact chAdvance_chunkLog n hadv (chAllocate_chunkLog n ha hi)

theorem nextPull_chunkLog :
    ∀ (src : List (List Nat)) (off bl : Nat) (chunks freed recv : List (List Nat)),
      InsE (freed ++ chunks) recv →
      InsE ((nextPull src off bl chunks freed recv).1.freed ++
          (nextPull src off bl chunks freed recv).1.chunks)
        (nextPull src off bl chunks freed recv).1.received := by
  intro src
  induction src with
  | nil =>
    intro off bl chunks freed recv hi
    rw [nextPull]
    by_cases hb : bl = 0
    · rw [if_pos hb]
      exact hi
    · rw [if_neg hb]
      exact hi
  | cons c rest ih =>
    intro off bl chunks freed recv hi
    rw [nextPull]
    by_cases hb : bl = 0
    · rw [if_pos hb]
      by_cases hc : 0 < c.length
      · rw [if_pos hc]
        refine ih off (bl + c.length) (chunks ++ [c]) freed (recv ++ [c]) ?_
        rw [← List.append_assoc]
        exact insE_append_same c hi
      · rw [if_neg hc]
        have hce : c = [] := List.length_eq_zero.mp (by omega)
        subst hce
        exact ih off bl chunks freed (recv ++ [[]]) (insE_append_emp hi)
    · rw [if_neg hb]
      exact hi

theorem chNext_chunkLog (opts : DecodeOptions) (fuel : Nat) :
    CoreInv ChunkLog (chNext opts fuel) := by
  intro s r s' h hi
  unfold chNext at h
  cases hnp : nextPull s.core.source s.core.offset s.core.byteLength s.core.chunks
      s.core.freed s.core.received with
  | mk c' flag =>
    rw [hnp] at h
    have hic' : ChunkLog c' := by
      have hh := nextPull_chunkLog s.core.source s.core.offset s.core.byteLength
        s.core.chunks s.core.freed s.core.received hi
      rw [hnp] at hh
      exact hh
    cases flag with
    | true =>
      dsimp only at h
      cases h
      exact hic'
    | false =>
      dsimp only at h
      cases hdec : decodeValueG chunkPrims opts fuel ⟨c', s.isKey, s.keyPath⟩ with
      | error e =>
        rw [hdec] at h
        exact Except.noConfusion h
      | ok p =>
        obtain ⟨v, s2⟩ := p
        rw [hdec] at h
        dsimp only at h
        cases h
        exact cinv_decodeValueG chunkPrimsInv opts fuel _ _ _ hdec hic'

theorem decodeIterableGo_chunkLog (opts : DecodeOptions) :
    ∀ fuel, CoreInv ChunkLog (decodeIterableGo opts fuel) := by
  intro fuel
  induction fuel with
  | zero => exact cinv_throw _
  | succ fuel ih =>
    intro s r s' h hi
    rw [decodeIterableGo] at h
    rcases bind_ok_iff.mp h with ⟨ro, s1, hn, h2⟩
    have hi1 := chNext_chunkLog opts fuel _ _ _ hn hi
    cases ro with
    | none =>
      dsimp only at h2
      cases pure_ok_iff.mp h2
      exact hi1
    | some v =>
      dsimp only at h2
      rcases bind_ok_iff.mp h2 with ⟨vs, s2, hrec, hp⟩
      cases pure_ok_iff.mp hp
      exact ih _ _ _ hrec hi1

/-- Claim C6, amended: within a single `advance(n)` the claimed
discipline does hold — the freed chunks are exactly the leading fully
consumed chunks, handed over in receive order and removed from the rope
(so each is freed at most once), with the received log untouched; and
across any complete streaming run the freed log followed by the
still-held rope equals the received log up to inserted empty chunks.
The original claim fails only for empty chunks received by the `next()`
pull loop, which are dropped without ever being freed. -/
theorem C6_onFree_amended :
    (∀ (n : Nat) (st : ChCore) (bs : List Nat) (st' : ChCore),
        chAdvance n st = .ok (bs, st') →
        ∃ dc, st'.freed = st.freed ++ List.take dc st.chunks ∧
          st'.chunks = List.drop dc st.chunks ∧
          st'.received = st.received ∧
          sumLen (List.take dc st.chunks) ≤ st.offset + n) ∧
    (∀ (opts : DecodeOptions) (src : List (List Nat)) (fuel : Nat)
        (vs : List CBORValue) (st : GSt ChCore),
        decodeIterableGo opts fuel (initGSt (initChCore src)) = .ok (vs, st) →
        InsE (st.core.freed ++ st.core.chunks) st.core.received) :=
  ⟨chAdvance_frees, fun opts src fuel vs st h =>
    decodeIterableGo_chunkLog opts fuel _ _ _ h .nil⟩

/-- Claim C6, counterexample: the source that yields a single empty
chunk.  The streaming decoder runs to completion having received the
chunk, but its freed log stays empty: `onFree` is never invoked on the
received chunk, against the claim's "exactly once". -/
theorem C6_counterexample :
    decodeIterableGo defaultOpts 2 (initGSt (initChCore [[]])) =
      .ok ([], ⟨⟨0, 0, [], [], [], [[]]⟩, false, []⟩) ∧
    (⟨0, 0, [], [], [], [[]]⟩ : ChCore).received = [[]] ∧
    (⟨0, 0, [], [], [], [[]]⟩ : ChCore).freed = [] :=
  ⟨rfl, rfl, rfl⟩

/-- Claim C6, witness: the amended theorem applied to a one-byte
`advance` over a held chunk `[7]` (freed exactly then, in order, fully
consumed) and to the complete streaming run over the single chunk
`[01]`. -/
theorem C6_witness :
    (∃ dc, ([[7]] : List (List Nat)) = [] ++ List.take dc [[7]] ∧
      ([] : List (List Nat)) = List.drop dc [[7]] ∧
      ([[7]] : List (List Nat)) = [[7]] ∧
      sumLen (List.take dc [[7]]) ≤ 0 + 1) ∧
    InsE ([[1]] ++ []) [[1]] :=
  ⟨C6_onFree_amended.1 1 ⟨0, 1, [[7]], [], [], [[7]]⟩ [7] ⟨0, 0, [], [], [[7]], [[7]]⟩ rfl,
    C6_onFree_amended.2 defaultOpts [[1]] 3 [.int 1]
      ⟨⟨0, 0, [], [], [[1]], [[1]]⟩, false, []⟩ rfl⟩
